import Mathlib

/-!
Verification of the promise-practice repository's Future/Promise engine.

The repository contains two versions of the engine: the practice template
`src/promise.js` and the sample solution (README: "Checkout the `solution`
branch to see a sample implementation"), present as `src/unnamed/part_000`.
The specification's "Future engine" (reaction-pair registry, identity /
re-raise defaults in `then`, `resolved` settling at construction) matches
the solution implementation in every detail, so the main embedding below
translates `src/unnamed/part_000`.  The rejection-handler machinery of
`src/promise.js` (single `_onRejected` slot) is embedded separately for the
claims that cite it.

The host scheduler (`setTimeout`) is modelled explicitly: a task list of
(due-time, task) pairs, executed earliest-due-first with FIFO order among
equal due times.  Handler invocations are recorded in an observation log so
that temporal claims (deferral, fan-out order) become statements about the
log.
-/

/-- Promise state, from the constants PENDING / RESOLVED / REJECTED of
`src/unnamed/part_000` lines 1-3. -/
inductive PState where
  | pending
  | resolved
  | rejected
deriving DecidableEq, Repr

/-- Untyped JS values, as far as the engine inspects them: the engine only
ever asks whether a value is a Promise (`isPromise`); everything else is an
opaque payload.  `null` is the initial `_result`; `undef` is the value of a
JS function returning nothing. -/
inductive Value where
  | null
  | undef
  | num (n : Int)
  | str (s : String)
  | list (vs : List Value)
  | promise (pid : Nat)
deriving Repr

mutual

def Value.decEq : (a b : Value) → Decidable (a = b)
  | .null, .null => isTrue rfl
  | .null, .undef => isFalse (fun h => Value.noConfusion h)
  | .null, .num _ => isFalse (fun h => Value.noConfusion h)
  | .null, .str _ => isFalse (fun h => Value.noConfusion h)
  | .null, .list _ => isFalse (fun h => Value.noConfusion h)
  | .null, .promise _ => isFalse (fun h => Value.noConfusion h)
  | .undef, .null => isFalse (fun h => Value.noConfusion h)
  | .undef, .undef => isTrue rfl
  | .undef, .num _ => isFalse (fun h => Value.noConfusion h)
  | .undef, .str _ => isFalse (fun h => Value.noConfusion h)
  | .undef, .list _ => isFalse (fun h => Value.noConfusion h)
  | .undef, .promise _ => isFalse (fun h => Value.noConfusion h)
  | .num _, .null => isFalse (fun h => Value.noConfusion h)
  | .num _, .undef => isFalse (fun h => Value.noConfusion h)
  | .num a, .num b =>
    if h : a = b then isTrue (by rw [h]) else
      isFalse (by intro hh; injection hh; contradiction)
  | .num _, .str _ => isFalse (fun h => Value.noConfusion h)
  | .num _, .list _ => isFalse (fun h => Value.noConfusion h)
  | .num _, .promise _ => isFalse (fun h => Value.noConfusion h)
  | .str _, .null => isFalse (fun h => Value.noConfusion h)
  | .str _, .undef => isFalse (fun h => Value.noConfusion h)
  | .str _, .num _ => isFalse (fun h => Value.noConfusion h)
  | .str a, .str b =>
    if h : a = b then isTrue (by rw [h]) else
      isFalse (by intro hh; injection hh; contradiction)
  | .str _, .list _ => isFalse (fun h => Value.noConfusion h)
  | .str _, .promise _ => isFalse (fun h => Value.noConfusion h)
  | .list _, .null => isFalse (fun h => Value.noConfusion h)
  | .list _, .undef => isFalse (fun h => Value.noConfusion h)
  | .list _, .num _ => isFalse (fun h => Value.noConfusion h)
  | .list _, .str _ => isFalse (fun h => Value.noConfusion h)
  | .list as, .list bs =>
    match Value.decEqList as bs with
    | isTrue h => isTrue (by rw [h])
    | isFalse h => isFalse (by intro hh; injection hh; contradiction)
  | .list _, .promise _ => isFalse (fun h => Value.noConfusion h)
  | .promise _, .null => isFalse (fun h => Value.noConfusion h)
  | .promise _, .undef => isFalse (fun h => Value.noConfusion h)
  | .promise _, .num _ => isFalse (fun h => Value.noConfusion h)
  | .promise _, .str _ => isFalse (fun h => Value.noConfusion h)
  | .promise _, .list _ => isFalse (fun h => Value.noConfusion h)
  | .promise a, .promise b =>
    if h : a = b then isTrue (by rw [h]) else
      isFalse (by intro hh; injection hh; contradiction)

def Value.decEqList : (as bs : List Value) → Decidable (as = bs)
  | [], [] => isTrue rfl
  | [], _ :: _ => isFalse (fun h => List.noConfusion h)
  | _ :: _, [] => isFalse (fun h => List.noConfusion h)
  | a :: as, b :: bs =>
    match Value.decEq a b, Value.decEqList as bs with
    | isTrue h1, isTrue h2 => isTrue (by rw [h1, h2])
    | isFalse h1, _ => isFalse (by intro hh; injection hh; contradiction)
    | isTrue _, isFalse h2 => isFalse (by intro hh; injection hh; contradiction)

end

instance : DecidableEq Value := Value.decEq

/-- `isPromise` from `src/unnamed/part_000` lines 16-18 (instance check). -/
def isPromiseV : Value → Bool
  | .promise _ => true
  | _ => false

/-- Bodies of caller-supplied handler functions, restricted to the shapes
exercised by the spec's properties: the identity default, the re-raising
default (`thrower`), returning a fixed value (possibly a Promise), and
throwing a fixed value. -/
inductive HFn where
  | identity
  | thrower
  | const (v : Value)
  | throwWith (v : Value)
deriving Repr

/-- Run a handler body on a value: `Except.error` models a JS throw.
`identity` is `v => v` and `thrower` is `e => { throw e; }`
(`src/unnamed/part_000` lines 6-7). -/
def evalHFn : HFn → Value → Except Value Value
  | .identity, v => .ok v
  | .thrower, v => .error v
  | .const c, _ => .ok c
  | .throwWith c, _ => .error c

/-- A reaction predicate: either a caller-supplied handler function, or one
of the engine's own injected closures (a promise's executor `resolve` /
`reject`, or the per-index accumulator closure of `Promise.all`). -/
inductive RPred where
  | handler (f : HFn)
  | resolver (pid : Nat)
  | rejecter (pid : Nat)
  | allRes (aid : Nat) (i : Nat)
deriving Repr

/-- A reaction record pushed by `_addReactionRecord`
(`src/unnamed/part_000` lines 80-85): one closure per settlement side, both
wired to the same child promise created by `then`. -/
structure Reaction where
  onRes : RPred
  onRej : RPred
  child : Nat
deriving Repr

/-- One promise object: `_state`, `_result`, `_queue`
(`src/unnamed/part_000` lines 42-45). -/
structure PObj where
  state : PState
  result : Value
  queue : List Reaction
deriving Repr

/-- The closure state of one `Promise.all` call: `results`, `count`, `len`
and the target promise whose executor `resolve`/`reject` the closures
capture (`src/unnamed/part_000` lines 180-209). -/
structure AllSt where
  results : List Value
  count : Nat
  len : Nat
  target : Nat
deriving Repr

/-- A scheduled callback: either a delayed executor settlement
(`setTimeout(() => resolve(v), d)`) or a `_publishResult` notification
(`setTimeout(() => this._invokeReactions(this._state), 0)`). -/
inductive STask where
  | settle (pid : Nat) (k : PState) (v : Value)
  | publish (pid : Nat)
deriving Repr

/-- The whole machine state: promise heap (index = identity), `Promise.all`
closure states, pending timer tasks as (due-time, task), the observation
log of handler invocations (child promise id, side, payload), and the
current time. -/
structure World where
  heap : List PObj
  alls : List AllSt
  tasks : List (Nat × STask)
  log : List (Nat × PState × Value)
  now : Nat
deriving Repr

def emptyWorld : World := ⟨[], [], [], [], 0⟩

def getP (w : World) (pid : Nat) : PObj :=
  w.heap.getD pid ⟨.pending, .null, []⟩

def updP (w : World) (pid : Nat) (f : PObj → PObj) : World :=
  {w with heap := w.heap.set pid (f (getP w pid))}

def addTask (w : World) (due : Nat) (t : STask) : World :=
  {w with tasks := w.tasks ++ [(due, t)]}

/-- `_publishResult` (`src/unnamed/part_000` lines 67-69): schedule a
notification with `setTimeout(..., 0)`; never invokes reactions directly. -/
def publishResult (w : World) (pid : Nat) : World :=
  addTask w w.now (.publish pid)

/-- The shared `fulfill` closure of the constructor
(`src/unnamed/part_000` lines 47-55): a silent no-op unless the promise is
still pending; otherwise records state and result and schedules
notification. -/
def fulfillP (w : World) (pid : Nat) (k : PState) (v : Value) : World :=
  if (getP w pid).state ≠ .pending then w
  else publishResult (updP w pid (fun p => {p with state := k, result := v})) pid

/-- The executor's `resolve` closure (`src/unnamed/part_000` line 57). -/
def execResolve (w : World) (pid : Nat) (v : Value) : World :=
  fulfillP w pid .resolved v

/-- The executor's `reject` closure (`src/unnamed/part_000` line 58). -/
def execReject (w : World) (pid : Nat) (v : Value) : World :=
  fulfillP w pid .rejected v

/-- `then` (`src/unnamed/part_000` lines 110-122): substitute the identity /
re-raise defaults for omitted handlers, create the child promise, append
the reaction record, and — when the host promise is already settled —
schedule (never run) a notification.  Returns the new child's id. -/
def thenP (w : World) (pid : Nat) (a b : Option RPred) : World × Nat :=
  let onRes := a.getD (.handler .identity)
  let onRej := b.getD (.handler .thrower)
  let child := w.heap.length
  let w1 := {w with heap := w.heap ++ [⟨.pending, .null, []⟩]}
  let w2 := updP w1 pid (fun p => {p with queue := p.queue ++ [⟨onRes, onRej, child⟩]})
  let w3 := if (getP w2 pid).state ≠ .pending then publishResult w2 pid else w2
  (w3, child)

/-- `catch` (`src/unnamed/part_000` lines 129-131): `this.then(undefined, onReject)`. -/
def catchP (w : World) (pid : Nat) (b : Option RPred) : World × Nat :=
  thenP w pid none b

/-- Executor bodies, as far as the spec's properties exercise them:
settle synchronously, settle after a delay via the scheduler, throw
synchronously, or do nothing. -/
inductive ExecCode where
  | skip
  | syncRes (v : Value)
  | syncRej (v : Value)
  | laterRes (d : Nat) (v : Value)
  | laterRej (d : Nat) (v : Value)
  | throwE (v : Value)
deriving Repr

/-- The constructor (`src/unnamed/part_000` lines 42-65): initialise the
fields, then run the executor inside try/catch — a synchronous throw is
converted into `reject(e)` and never escapes. -/
def newPromise (w : World) (e : ExecCode) : World × Nat :=
  let pid := w.heap.length
  let w0 := {w with heap := w.heap ++ [⟨.pending, .null, []⟩]}
  let w1 :=
    match e with
    | .skip => w0
    | .syncRes v => execResolve w0 pid v
    | .syncRej v => execReject w0 pid v
    | .laterRes d v => addTask w0 (w0.now + d) (.settle pid .resolved v)
    | .laterRej d v => addTask w0 (w0.now + d) (.settle pid .rejected v)
    | .throwE v => execReject w0 pid v
  (w1, pid)

/-- `makePromiseInState` (`src/unnamed/part_000` lines 9-14): a fresh
promise whose state and result are written directly — no notification is
scheduled and no executor runs. -/
def makePromiseInState (w : World) (k : PState) (v : Value) : World × Nat :=
  (({w with heap := w.heap ++ [⟨k, v, []⟩]}), w.heap.length)

/-- `Promise.resolve` (`src/unnamed/part_000` lines 153-155): identity on
promises, otherwise an already-resolved promise. -/
def resolveP (w : World) (v : Value) : World × Nat :=
  match v with
  | .promise pid => (w, pid)
  | _ => makePromiseInState w .resolved v

/-- `Promise.reject` (`src/unnamed/part_000` lines 163-165): always a fresh
already-rejected promise. -/
def rejectP (w : World) (v : Value) : World × Nat :=
  makePromiseInState w .rejected v

/-- Evaluate a reaction predicate on the settled payload.  A caller-supplied
handler is recorded in the observation log (identified by the reaction's
child promise id) and then run; the engine's own closures settle their
target promise and return `undefined` (and never throw).  The `allRes`
case is the per-index closure of `Promise.all` (`src/unnamed/part_000`
lines 191-207): store the value at its input index, bump the counter, and
resolve the target with the accumulated array once all inputs are in. -/
def runRPred (w : World) (side : PState) (child : Nat) (p : RPred) (v : Value) :
    World × Except Value Value :=
  match p with
  | .handler f => ({w with log := w.log ++ [(child, side, v)]}, evalHFn f v)
  | .resolver pid => (execResolve w pid v, .ok .undef)
  | .rejecter pid => (execReject w pid v, .ok .undef)
  | .allRes aid i =>
      let a := w.alls.getD aid ⟨[], 0, 0, 0⟩
      let rs := a.results.set i v
      let c := a.count + 1
      let w1 := {w with alls := w.alls.set aid ⟨rs, c, a.len, a.target⟩}
      (if c = a.len then execResolve w1 a.target (.list rs) else w1, .ok .undef)

/-- The closure built by `_createReaction` (`src/unnamed/part_000` lines
87-100): run the predicate on the result; if it throws, reject the child
with the thrown value; if it returns a Promise, forward that Promise's
settlement into the child via its own `then`; otherwise resolve the child
with the returned value. -/
def runReaction (w : World) (side : PState) (rc : Reaction) (res : Value) : World :=
  let pr := match side with | .resolved => rc.onRes | _ => rc.onRej
  match runRPred w side rc.child pr res with
  | (w1, .error e) => execReject w1 rc.child e
  | (w1, .ok v) =>
    match v with
    | .promise g => (thenP w1 g (some (.resolver rc.child)) (some (.rejecter rc.child))).1
    | _ => execResolve w1 rc.child v

/-- `_invokeReactions` (`src/unnamed/part_000` lines 71-78): destructively
drain the queue, running the slot matching the settled side on each record.
The source's `while` loop rereads the live queue each iteration (reactions
appended during the drain are processed too), so the recursion is
fuel-indexed. -/
def invokeReactions : Nat → World → Nat → PState → Value → World
  | 0, w, _, _, _ => w
  | fuel + 1, w, pid, side, res =>
    match (getP w pid).queue with
    | [] => w
    | rc :: rest =>
      let w1 := updP w pid (fun p => {p with queue := rest})
      let w2 := runReaction w1 side rc res
      invokeReactions fuel w2 pid side res

/-- Run one scheduled callback.  A `settle` task is a delayed executor
settlement; a `publish` task is the body of `_publishResult`'s
`setTimeout`, which reads the promise's state and result at run time.
(The state is never `pending` when a publish task runs, since publishes
are only scheduled at or after settlement.) -/
def runTask (df : Nat) (w : World) (t : STask) : World :=
  match t with
  | .settle pid k v => fulfillP w pid k v
  | .publish pid =>
    let p := getP w pid
    match p.state with
    | .pending => w
    | s => invokeReactions df w pid s p.result

/-- Pick the scheduled task with the earliest due time, first-scheduled
first among equal due times (the host's timer ordering), returning it and
the remaining tasks in order. -/
def firstMin : List (Nat × STask) → Option (Nat × STask × List (Nat × STask))
  | [] => none
  | (d, t) :: rest =>
    match firstMin rest with
    | none => some (d, t, [])
    | some (d', t', rest') =>
      if d' < d then some (d', t', (d, t) :: rest') else some (d, t, rest)

/-- Run the next scheduled callback, if any, advancing the clock to its due
time.  `df` is the drain-loop fuel passed through to `invokeReactions`. -/
def stepW (df : Nat) (w : World) : Option World :=
  match firstMin w.tasks with
  | none => none
  | some (d, t, rest) => some (runTask df {w with tasks := rest, now := d} t)

/-- Run up to `n` scheduled callbacks (the event loop). -/
def runSteps : Nat → Nat → World → World
  | 0, _, w => w
  | n + 1, df, w =>
    match stepW df w with
    | none => w
    | some w' => runSteps n df w'

/-- `Promise.all` (`src/unnamed/part_000` lines 180-210): create the target
promise and the closure state; resolve immediately with the empty array on
empty input; otherwise coerce each input with `Promise.resolve` and attach
the per-index accumulator / the target's reject to it. -/
def allP (w : World) (inputs : List Value) : World × Nat :=
  let target := w.heap.length
  let w1 : World := {w with heap := w.heap ++ [⟨.pending, .null, []⟩]}
  let len := inputs.length
  let aid := w1.alls.length
  let w2 : World := {w1 with alls := w1.alls ++ [⟨List.replicate len .undef, 0, len, target⟩]}
  if len = 0 then (execResolve w2 target (.list []), target)
  else
    (inputs.enum.foldl (fun wa iv =>
        let (wb, pidI) := resolveP wa iv.2
        (thenP wb pidI (some (.allRes aid iv.1)) (some (.rejecter target))).1) w2,
     target)

/-- `Promise.race` (`src/unnamed/part_000` lines 220-230): create the target
promise; on empty input call `resolve()` (settling it with `undefined`);
then hook every coerced input's settlement directly into the target's
`resolve` / `reject`. -/
def raceP (w : World) (inputs : List Value) : World × Nat :=
  let target := w.heap.length
  let w1 := {w with heap := w.heap ++ [⟨.pending, .null, []⟩]}
  let w2 := if inputs.length = 0 then execResolve w1 target .undef else w1
  let w3 := inputs.foldl (fun wa v =>
      let (wb, pidI) := resolveP wa v
      (thenP wb pidI (some (.resolver target)) (some (.rejecter target))).1) w2
  (w3, target)

/-!
Model of the practice implementation `src/promise.js`, as far as the claims
cite it: the settle closures (lines 52-69), the single `_onRejected` slot
with `_setRejectedHandler` (lines 155-162), `_doResolve`/`_doReject`
(lines 97-117), `then` (lines 172-187) and `catch` (lines 194-200).
One promise object is modelled (the claims about this code are per-promise);
a handler wrapper is identified by the id (`next`) of the child promise the
`then`/`catch` call would create, and running a wrapper is recorded in the
log.  Its `setTimeout` uses no delay, so tasks run FIFO.
-/

/-- A `setTimeout` callback of `src/promise.js`: the `then`-scheduled
`() => this._fulfill()` (line 185), or an invocation `() => cb(value)` /
`() => fn(reason)` scheduled by `_doResolve` / `_doReject`. -/
inductive JsTask where
  | fulfillT
  | invokeT (tag : Nat) (v : Value)
deriving Repr

/-- One `src/promise.js` promise: `_state`, `_value`, `_reason`, the single
`_onRejected` wrapper slot, the `_onResolved` wrapper queue, plus the
modelled scheduler queue, invocation log, and fresh-wrapper counter. -/
structure JsWorld where
  state : PState
  value : Value
  reason : Value
  onRejected : Option (Nat × HFn)
  onResolved : List (Nat × HFn)
  tasks : List JsTask
  log : List (Nat × Value)
  next : Nat
deriving Repr

/-- A fresh pending promise (constructor field initialisation,
`src/promise.js` lines 29-49). -/
def jsPending : JsWorld := ⟨.pending, .undef, .undef, none, [], [], [], 0⟩

/-- `_doResolve` (lines 97-104): drain the resolved-handler queue, deferring
each invocation with the captured `_value`. -/
def jsDoResolve (w : JsWorld) : JsWorld :=
  {w with onResolved := [],
          tasks := w.tasks ++ w.onResolved.map (fun tf => .invokeT tf.1 w.value)}

/-- `_doReject` (lines 110-117): if a rejected-handler wrapper is set, clear
the slot and defer its invocation with the captured `_reason`. -/
def jsDoReject (w : JsWorld) : JsWorld :=
  match w.onRejected with
  | none => w
  | some tf => {w with onRejected := none, tasks := w.tasks ++ [.invokeT tf.1 w.reason]}

/-- `_fulfill` (lines 84-91). -/
def jsFulfill (w : JsWorld) : JsWorld :=
  match w.state with
  | .pending => w
  | .resolved => jsDoResolve w
  | .rejected => jsDoReject w

/-- The executor `resolve` closure (lines 52-59): first settle wins. -/
def jsResolve (w : JsWorld) (v : Value) : JsWorld :=
  if w.state ≠ .pending then w
  else jsFulfill {w with value := v, state := .resolved}

/-- The executor `reject` closure (lines 62-69): first settle wins. -/
def jsReject (w : JsWorld) (r : Value) : JsWorld :=
  if w.state ≠ .pending then w
  else jsFulfill {w with reason := r, state := .rejected}

/-- `_setResolvedHandler` (lines 132-140): append a wrapper if a handler was
given, else do nothing. -/
def jsSetResolvedHandler (w : JsWorld) (tag : Nat) (o : Option HFn) : JsWorld :=
  match o with
  | some f => {w with onResolved := w.onResolved ++ [(tag, f)]}
  | none => w

/-- `_setRejectedHandler` (lines 155-162): overwrite the single slot — with
a wrapper if a handler was given, with null otherwise. -/
def jsSetRejectedHandler (w : JsWorld) (tag : Nat) (o : Option HFn) : JsWorld :=
  {w with onRejected := o.map (fun f => (tag, f))}

/-- The body of `then` (lines 178-186) once the at-least-one-handler guard
has passed: create the child (here: allocate its tag), install both
handlers on the host, and schedule `() => this._fulfill()`. -/
def jsThenCore (w : JsWorld) (o1 o2 : Option HFn) : JsWorld :=
  let tag := w.next
  let w1 := jsSetResolvedHandler w tag o1
  let w2 := jsSetRejectedHandler w1 tag o2
  {w2 with tasks := w2.tasks ++ [.fulfillT], next := tag + 1}

/-- `then` (lines 172-187): `none` models the thrown
`Error('Promise#then must have at least one handler')` when both handlers
are omitted. -/
def jsThen (w : JsWorld) (o1 o2 : Option HFn) : Option JsWorld :=
  if o1.isNone && o2.isNone then none else some (jsThenCore w o1 o2)

/-- `catch` (lines 194-200): null the slot, then (in the child's executor)
install the new wrapper and call `_fulfill()` synchronously. -/
def jsCatch (w : JsWorld) (o : Option HFn) : JsWorld :=
  let w1 : JsWorld := {w with onRejected := none}
  let tag := w1.next
  let w2 := jsSetRejectedHandler w1 tag o
  let w3 := jsFulfill w2
  {w3 with next := tag + 1}

/-- Run the scheduled `setTimeout` callbacks FIFO. -/
def jsRunTasks : Nat → JsWorld → JsWorld
  | 0, w => w
  | n + 1, w =>
    match w.tasks with
    | [] => w
    | .fulfillT :: rest => jsRunTasks n (jsFulfill {w with tasks := rest})
    | .invokeT tag v :: rest => jsRunTasks n {w with tasks := rest, log := w.log ++ [(tag, v)]}

/-- A well-formed attachment call on a `src/promise.js` promise: `then` with
at least one handler, or `catch`. -/
inductive JsAtt where
  | thenBoth (f g : HFn)
  | thenRes (f : HFn)
  | thenRej (g : HFn)
  | catchA (o : Option HFn)
deriving Repr

def jsAttach (w : JsWorld) : JsAtt → JsWorld
  | .thenBoth f g => jsThenCore w (some f) (some g)
  | .thenRes f => jsThenCore w (some f) none
  | .thenRej g => jsThenCore w none (some g)
  | .catchA o => jsCatch w o

/-- The rejection handler an attachment supplies (if any). -/
def JsAtt.rejHandler : JsAtt → Option HFn
  | .thenBoth _ g => some g
  | .thenRes _ => none
  | .thenRej g => some g
  | .catchA o => o

def jsAttachAll (w : JsWorld) (as' : List JsAtt) : JsWorld :=
  as'.foldl jsAttach w

/-- A sequence of calls to one promise's injected settle closures:
`true` is a `reject(v)` call, `false` a `resolve(v)` call. -/
def applySettles (w : World) (pid : Nat) (cs : List (Bool × Value)) : World :=
  cs.foldl (fun wa c => if c.1 then execReject wa pid c.2 else execResolve wa pid c.2) w

/-- The same sequence against a `src/promise.js` promise. -/
def jsApplySettles (w : JsWorld) (cs : List (Bool × Value)) : JsWorld :=
  cs.foldl (fun wa c => if c.1 then jsReject wa c.2 else jsResolve wa c.2) w

/-! Scenario definitions used by the claim theorems. -/

/-- An executor that settles with kind `k` after delay `d` (for `k`
settled kinds this is `setTimeout(() => resolve(v), d)` resp. `reject`). -/
def laterCode (k : PState) (d : Nat) (v : Value) : ExecCode :=
  match k with
  | .rejected => .laterRej d v
  | _ => .laterRes d v

/-- Attach a list of reaction pairs to `pid` by successive `then` calls. -/
def attachPairs (w : World) (pid : Nat) (hs : List (HFn × HFn)) : World :=
  hs.foldl (fun wa fg => (thenP wa pid (some (.handler fg.1)) (some (.handler fg.2))).1) w

/-- The reaction records `attachPairs` builds, with children numbered from
`base`. -/
def mkReacts : Nat → List (HFn × HFn) → List Reaction
  | _, [] => []
  | base, fg :: hs => ⟨.handler fg.1, .handler fg.2, base⟩ :: mkReacts (base + 1) hs

/-- The handler of a pair on the side matching settled state `k`. -/
def sideH (k : PState) (fg : HFn × HFn) : HFn :=
  match k with
  | .resolved => fg.1
  | _ => fg.2

/-- A handler run is tame on payload `r` when it does not return a Promise
(so its reaction settles its child directly instead of chaining). -/
def tameB (f : HFn) (r : Value) : Bool :=
  match evalHFn f r with
  | .ok (.promise _) => false
  | _ => true

/-- How a reaction settles its child for a tame handler outcome. -/
def outcomeOf (f : HFn) (r : Value) : PState × Value :=
  match evalHFn f r with
  | .ok v => (.resolved, v)
  | .error e => (.rejected, e)

/-- Claim C3 scenario: a promise that settles `(k, r)` via the scheduler;
`hsB` reaction pairs attached while pending; the settlement and its
notification run; `hsA` more pairs attached after settlement; the event
loop runs to quiescence. -/
def fanoutRun (k : PState) (r : Value) (hsB hsA : List (HFn × HFn)) : World :=
  let pr := newPromise emptyWorld (laterCode k 0 r)
  let w2 := attachPairs pr.1 pr.2 hsB
  let w3 := runSteps 2 (hsB.length + 1) w2
  let w4 := attachPairs w3 pr.2 hsA
  runSteps (2 * (hsB.length + hsA.length) + 4) (hsA.length + 1) w4

/-- The expected invocation log for the C3 scenario: every attached pair
exactly once, in attachment order, on side `k` with payload `r`
(reactions are identified by their child promise ids `1, 2, ...`). -/
def fanoutLog (k : PState) (r : Value) (nB nA : Nat) : List (Nat × PState × Value) :=
  (List.range nB).map (fun i => (1 + i, k, r)) ++
    (List.range nA).map (fun i => (1 + nB + i, k, r))

/-- Claim C5 scenario: `resolved(1).then(v => { throw 'boom'; })
.then(v => 99).catch(r => r)`, run to quiescence.  Promise ids:
parent 0, first child 1, second child 2, catch child 3. -/
def c5World : World :=
  let s1 := resolveP emptyWorld (.num 1)
  let s2 := thenP s1.1 s1.2 (some (.handler (.throwWith (.str "boom")))) none
  let s3 := thenP s2.1 s2.2 (some (.handler (.const (.num 99)))) none
  let s4 := catchP s3.1 s3.2 (some (.handler .identity))
  runSteps 8 8 s4.1

/-- Claim C4 general scenario: `g` (id 0) already settled `(kg, rg)`;
`resolved(1)` (id 1) chained with a handler returning `g`; the child is
id 2.  Run to quiescence. -/
def c4Run (kg : PState) (rg : Value) : World :=
  let g := makePromiseInState emptyWorld kg rg
  let p := resolveP g.1 (.num 1)
  let t := thenP p.1 p.2 (some (.handler (.const (.promise g.2)))) none
  runSteps 8 8 t.1

/-- Claim C4 nested-`then` scenario: `h = resolved(42)` (id 0),
`g = resolved(7).then(v => h)` (ids 1, 2), and
`c = resolved(1).then(v => g)` (ids 3, 4). -/
def c4ChainWorld : World :=
  let h := resolveP emptyWorld (.num 42)
  let q := resolveP h.1 (.num 7)
  let g := thenP q.1 q.2 (some (.handler (.const (.promise h.2)))) none
  let p := resolveP g.1 (.num 1)
  let t := thenP p.1 p.2 (some (.handler (.const (.promise g.2)))) none
  runSteps 12 12 t.1

/-- Claim C4 counterexample scenario: `h = resolved-at-construction 42`
(id 0), `g` an executor-resolved promise whose payload is the Future `h`
(id 1), and `c = resolved(1).then(v => g)` (ids 2, 3). -/
def c4CounterWorld : World :=
  let h := newPromise emptyWorld (.syncRes (.num 42))
  let g := newPromise h.1 (.syncRes (.promise h.2))
  let p := resolveP g.1 (.num 1)
  let t := thenP p.1 p.2 (some (.handler (.const (.promise g.2)))) none
  runSteps 8 8 t.1

/-- Claim C6 scenario (attach after settlement): a parent already settled
`(k, r)` (id 0), `then()` with neither handler (child id 1), run to
quiescence. -/
def c6Run (k : PState) (r : Value) : World :=
  let p := makePromiseInState emptyWorld k r
  let t := thenP p.1 p.2 none none
  runSteps 6 6 t.1

/-- Claim C6 scenario (attach before settlement): a parent settling
`(k, r)` at delay 3 (id 0), `then()` with neither handler attached while
pending (child id 1), run to quiescence. -/
def c6RunPending (k : PState) (r : Value) : World :=
  let p := newPromise emptyWorld (laterCode k 3 r)
  let t := thenP p.1 p.2 none none
  runSteps 6 6 t.1

/-- Claim C7: the settlement events of the coerced inputs as they reach the
`Promise.all` accumulator closures, in completion order: event `(i, v)` is
input `i` fulfilling with `v`. -/
def applyArrivals (w : World) (aid : Nat) (es : List (Nat × Value)) : World :=
  es.foldl (fun wa e => (runRPred wa .resolved 0 (.allRes aid e.1) e.2).1) w

/-- Claim C7 end-to-end scenario: `allOf` of two futures fulfilling 10 at
delay 30 and 20 at delay 5 (ids 0, 1; target id 2). -/
def c7World : World × Nat :=
  let a := newPromise emptyWorld (.laterRes 30 (.num 10))
  let b := newPromise a.1 (.laterRes 5 (.num 20))
  let t := allP b.1 [.promise a.2, .promise b.2]
  (runSteps 12 12 t.1, t.2)

/-- Claim C8 end-to-end scenario: `firstOf` of two futures fulfilling 'a'
at delay 10 and 'b' at delay 5 (ids 0, 1; target id 2). -/
def c8World : World × Nat :=
  let a := newPromise emptyWorld (.laterRes 10 (.str "a"))
  let b := newPromise a.1 (.laterRes 5 (.str "b"))
  let t := raceP b.1 [.promise a.2, .promise b.2]
  (runSteps 12 12 t.1, t.2)

/-- Claim C9 scenario: `firstOf([])` (target id 0). -/
def c9World : World × Nat := raceP emptyWorld []

/-- Claim C10 counterexample scenario: a `src/promise.js` promise already
rejected with 'boom'; `catch(A)` then `catch(B)` attached afterwards
(wrapper tags 0 and 1); scheduled callbacks run to quiescence. -/
def c10World : JsWorld :=
  let w0 : JsWorld := {jsPending with state := .rejected, reason := .str "boom"}
  let w1 := jsCatch w0 (some .identity)
  let w2 := jsCatch w1 (some .identity)
  jsRunTasks 10 w2

/-- The log entry a scheduled `src/promise.js` callback contributes when it
runs: handler invocations record their wrapper tag and payload, the
`then`-scheduled `_fulfill` calls record nothing themselves. -/
def taskEntry : JsTask → Option (Nat × Value)
  | .fulfillT => none
  | .invokeT tag v => some (tag, v)

/-- The log entries a drain of `n` handler reactions produces, children
numbered from `base`. -/
def reactLog : Nat → PState → Value → Nat → List (Nat × PState × Value)
  | _, _, _, 0 => []
  | base, k, r, n + 1 => (base, k, r) :: reactLog (base + 1) k r n

/-- The notification tasks scheduled for the children settled during such a
drain. -/
def pubTasks : Nat → Nat → Nat → List (Nat × STask)
  | _, _, 0 => []
  | now, base, n + 1 => (now, .publish base) :: pubTasks now (base + 1) n

/-! Basic lemmas about the world operations. -/

theorem log_addTask (w : World) (d : Nat) (t : STask) : (addTask w d t).log = w.log := rfl

theorem log_updP (w : World) (pid : Nat) (f : PObj → PObj) : (updP w pid f).log = w.log := rfl

theorem log_publishResult (w : World) (pid : Nat) : (publishResult w pid).log = w.log := rfl

theorem log_fulfillP (w : World) (pid : Nat) (k : PState) (v : Value) :
    (fulfillP w pid k v).log = w.log := by
  unfold fulfillP
  split <;> rfl

theorem log_thenP (w : World) (pid : Nat) (a b : Option RPred) :
    ((thenP w pid a b).1).log = w.log := by
  unfold thenP
  dsimp only
  split <;> rfl

theorem getP_addTask (w : World) (d : Nat) (t : STask) (q : Nat) :
    getP (addTask w d t) q = getP w q := rfl

theorem getP_publishResult (w : World) (pid q : Nat) :
    getP (publishResult w pid) q = getP w q := rfl

theorem getP_updP_self (w : World) (pid : Nat) (f : PObj → PObj)
    (h : pid < w.heap.length) : getP (updP w pid f) pid = f (getP w pid) := by
  simp [getP, updP, List.getD_eq_getElem?_getD, List.getElem?_set_self, h]

theorem getP_updP_ne (w : World) (pid : Nat) (f : PObj → PObj) (q : Nat)
    (h : q ≠ pid) : getP (updP w pid f) q = getP w q := by
  simp [getP, updP, List.getD_eq_getElem?_getD,
    List.getElem?_set_ne (show pid ≠ q from fun e => h e.symm)]

theorem heapLen_updP (w : World) (pid : Nat) (f : PObj → PObj) :
    (updP w pid f).heap.length = w.heap.length := by
  simp [updP]

theorem fulfillP_settled (w : World) (pid : Nat) (k : PState) (v : Value)
    (h : ¬ (getP w pid).state = .pending) : fulfillP w pid k v = w := by
  unfold fulfillP
  rw [if_pos h]

theorem getP_fulfillP_self (w : World) (pid : Nat) (k : PState) (v : Value)
    (h : (getP w pid).state = .pending) (hl : pid < w.heap.length) :
    getP (fulfillP w pid k v) pid = ⟨k, v, (getP w pid).queue⟩ := by
  unfold fulfillP
  rw [if_neg (by simp [h])]
  rw [getP_publishResult, getP_updP_self _ _ _ hl]

theorem getP_fulfillP_ne (w : World) (pid : Nat) (k : PState) (v : Value) (q : Nat)
    (h : q ≠ pid) : getP (fulfillP w pid k v) q = getP w q := by
  unfold fulfillP
  split
  · rfl
  · rw [getP_publishResult, getP_updP_ne _ _ _ _ h]

theorem tasks_fulfillP_pending (w : World) (pid : Nat) (k : PState) (v : Value)
    (h : (getP w pid).state = .pending) :
    (fulfillP w pid k v).tasks = w.tasks ++ [(w.now, .publish pid)] := by
  unfold fulfillP
  rw [if_neg (by simp [h])]
  rfl

theorem heapLen_fulfillP (w : World) (pid : Nat) (k : PState) (v : Value) :
    (fulfillP w pid k v).heap.length = w.heap.length := by
  unfold fulfillP
  split
  · rfl
  · simp [publishResult, addTask, updP]

theorem alls_fulfillP (w : World) (pid : Nat) (k : PState) (v : Value) :
    (fulfillP w pid k v).alls = w.alls := by
  unfold fulfillP
  split <;> rfl

theorem now_fulfillP (w : World) (pid : Nat) (k : PState) (v : Value) :
    (fulfillP w pid k v).now = w.now := by
  unfold fulfillP
  split <;> rfl

theorem getP_heapAppend_lt (w : World) (x : PObj) (q : Nat) (h : q < w.heap.length) :
    getP {w with heap := w.heap ++ [x]} q = getP w q := by
  simp only [getP, List.getD_eq_getElem?_getD]
  rw [List.getElem?_append]
  simp [h]

theorem getP_heapAppend_self (w : World) (x : PObj) :
    getP {w with heap := w.heap ++ [x]} w.heap.length = x := by
  simp [getP, List.getD_eq_getElem?_getD]

theorem thenP_snd (w : World) (pid : Nat) (a b : Option RPred) :
    (thenP w pid a b).2 = w.heap.length := rfl

theorem heapLen_thenP (w : World) (pid : Nat) (a b : Option RPred) :
    ((thenP w pid a b).1).heap.length = w.heap.length + 1 := by
  unfold thenP
  dsimp only
  split
  all_goals simp [publishResult, addTask, updP]

theorem log_catchP (w : World) (pid : Nat) (b : Option RPred) :
    ((catchP w pid b).1).log = w.log := log_thenP w pid none b

theorem alls_thenP (w : World) (pid : Nat) (a b : Option RPred) :
    ((thenP w pid a b).1).alls = w.alls := by
  unfold thenP
  dsimp only
  split <;> rfl

theorem now_thenP (w : World) (pid : Nat) (a b : Option RPred) :
    ((thenP w pid a b).1).now = w.now := by
  unfold thenP
  dsimp only
  split <;> rfl

theorem getP_thenP_self (w : World) (pid : Nat) (a b : Option RPred)
    (hl : pid < w.heap.length) :
    getP (thenP w pid a b).1 pid =
      {getP w pid with queue := (getP w pid).queue ++
        [⟨a.getD (.handler .identity), b.getD (.handler .thrower), w.heap.length⟩]} := by
  unfold thenP
  dsimp only
  have h1 : pid < ({w with heap := w.heap ++ [⟨.pending, .null, []⟩]} : World).heap.length := by
    simp; omega
  split
  · rw [getP_publishResult, getP_updP_self _ _ _ h1, getP_heapAppend_lt _ _ _ hl]
  · rw [getP_updP_self _ _ _ h1, getP_heapAppend_lt _ _ _ hl]

theorem getP_thenP_ne (w : World) (pid : Nat) (a b : Option RPred) (q : Nat)
    (hq : q ≠ pid) (hql : q < w.heap.length) :
    getP (thenP w pid a b).1 q = getP w q := by
  unfold thenP
  dsimp only
  split
  · rw [getP_publishResult, getP_updP_ne _ _ _ _ hq, getP_heapAppend_lt _ _ _ hql]
  · rw [getP_updP_ne _ _ _ _ hq, getP_heapAppend_lt _ _ _ hql]

theorem getP_thenP_child (w : World) (pid : Nat) (a b : Option RPred)
    (hl : pid < w.heap.length) :
    getP (thenP w pid a b).1 w.heap.length = ⟨.pending, .null, []⟩ := by
  unfold thenP
  dsimp only
  have hne : w.heap.length ≠ pid := by omega
  split
  · rw [getP_publishResult, getP_updP_ne _ _ _ _ hne, getP_heapAppend_self]
  · rw [getP_updP_ne _ _ _ _ hne, getP_heapAppend_self]

theorem tasks_thenP (w : World) (pid : Nat) (a b : Option RPred)
    (hl : pid < w.heap.length) :
    ((thenP w pid a b).1).tasks =
      if (getP w pid).state ≠ .pending then w.tasks ++ [(w.now, .publish pid)]
      else w.tasks := by
  unfold thenP
  dsimp only
  have h1 : pid < ({w with heap := w.heap ++ [⟨.pending, .null, []⟩]} : World).heap.length := by
    simp
    omega
  rw [getP_updP_self _ _ _ h1, getP_heapAppend_lt _ _ _ hl]
  dsimp only
  split <;> rfl

/-- Effect of attaching a list of reaction pairs to a pending promise:
the reactions queue up in attachment order (children numbered from the old
heap end), nothing is scheduled, nothing is logged, and nothing else in the
world changes. -/
theorem attachPairs_pending : ∀ (hs : List (HFn × HFn)) (w : World) (pid : Nat),
    (getP w pid).state = .pending → pid < w.heap.length →
    (attachPairs w pid hs).heap.length = w.heap.length + hs.length ∧
    (attachPairs w pid hs).log = w.log ∧
    (attachPairs w pid hs).tasks = w.tasks ∧
    (attachPairs w pid hs).alls = w.alls ∧
    (attachPairs w pid hs).now = w.now ∧
    (getP (attachPairs w pid hs) pid).state = .pending ∧
    (getP (attachPairs w pid hs) pid).result = (getP w pid).result ∧
    (getP (attachPairs w pid hs) pid).queue =
      (getP w pid).queue ++ mkReacts w.heap.length hs ∧
    (∀ q, q < w.heap.length → q ≠ pid → getP (attachPairs w pid hs) q = getP w q) ∧
    (∀ j, w.heap.length ≤ j → j < w.heap.length + hs.length →
      getP (attachPairs w pid hs) j = ⟨.pending, .null, []⟩) := by
  intro hs
  induction hs with
  | nil =>
    intro w pid hp hl
    refine ⟨rfl, rfl, rfl, rfl, rfl, hp, rfl, by simp [mkReacts, attachPairs], ?_, ?_⟩
    · intro q _ _
      rfl
    · intro j h1 h2
      simp only [List.length_nil] at h2
      omega
  | cons fg hs ih =>
    intro w pid hp hl
    have hq := getP_thenP_self w pid (some (.handler fg.1)) (some (.handler fg.2)) hl
    have hstep : attachPairs w pid (fg :: hs) =
        attachPairs (thenP w pid (some (.handler fg.1)) (some (.handler fg.2))).1 pid hs := rfl
    set w1 := (thenP w pid (some (.handler fg.1)) (some (.handler fg.2))).1 with hw1
    have hp1 : (getP w1 pid).state = .pending := by
      rw [hq]
      exact hp
    have hl1 : pid < w1.heap.length := by
      rw [heapLen_thenP]
      omega
    have hlen1 : w1.heap.length = w.heap.length + 1 := heapLen_thenP w pid _ _
    obtain ⟨iL, iLog, iT, iA, iN, iS, iR, iQ, iOther, iFresh⟩ := ih w1 pid hp1 hl1
    have ht1 : w1.tasks = w.tasks := by
      rw [tasks_thenP w pid _ _ hl, if_neg (by simp [hp])]
    refine ⟨?_, ?_, ?_, ?_, ?_, ?_, ?_, ?_, ?_, ?_⟩
    · rw [hstep, iL, hlen1]
      simp
      omega
    · rw [hstep, iLog, hw1, log_thenP]
    · rw [hstep, iT, ht1]
    · rw [hstep, iA, hw1, alls_thenP]
    · rw [hstep, iN, hw1, now_thenP]
    · rw [hstep]
      exact iS
    · rw [hstep, iR, hq]
    · rw [hstep, iQ, hq, hlen1]
      simp [mkReacts, List.append_assoc]
    · intro q hql hqp
      rw [hstep, iOther q (by omega) hqp, hw1, getP_thenP_ne _ _ _ _ _ hqp hql]
    · intro j h1 h2
      have hc : (fg :: hs).length = hs.length + 1 := rfl
      rw [hstep]
      rcases Nat.eq_or_lt_of_le h1 with he | hlt
      · rw [iOther j (by omega) (by omega), ← he, hw1, getP_thenP_child _ _ _ _ hl]
      · exact iFresh j (by omega) (by omega)

/-- Effect of attaching a list of reaction pairs to an already-settled
promise: as for a pending promise, except that each `then` call also
schedules one notification of the parent (and still invokes nothing). -/
theorem attachPairs_settled : ∀ (hs : List (HFn × HFn)) (w : World) (pid : Nat),
    ¬ (getP w pid).state = .pending → pid < w.heap.length →
    (attachPairs w pid hs).heap.length = w.heap.length + hs.length ∧
    (attachPairs w pid hs).log = w.log ∧
    (attachPairs w pid hs).tasks =
      w.tasks ++ List.replicate hs.length (w.now, STask.publish pid) ∧
    (attachPairs w pid hs).alls = w.alls ∧
    (attachPairs w pid hs).now = w.now ∧
    (getP (attachPairs w pid hs) pid).state = (getP w pid).state ∧
    (getP (attachPairs w pid hs) pid).result = (getP w pid).result ∧
    (getP (attachPairs w pid hs) pid).queue =
      (getP w pid).queue ++ mkReacts w.heap.length hs ∧
    (∀ q, q < w.heap.length → q ≠ pid → getP (attachPairs w pid hs) q = getP w q) ∧
    (∀ j, w.heap.length ≤ j → j < w.heap.length + hs.length →
      getP (attachPairs w pid hs) j = ⟨.pending, .null, []⟩) := by
  intro hs
  induction hs with
  | nil =>
    intro w pid hp hl
    refine ⟨rfl, rfl, by simp [attachPairs], rfl, rfl, rfl, rfl,
      by simp [mkReacts, attachPairs], ?_, ?_⟩
    · intro q _ _
      rfl
    · intro j h1 h2
      simp only [List.length_nil] at h2
      omega
  | cons fg hs ih =>
    intro w pid hp hl
    have hq := getP_thenP_self w pid (some (.handler fg.1)) (some (.handler fg.2)) hl
    have hstep : attachPairs w pid (fg :: hs) =
        attachPairs (thenP w pid (some (.handler fg.1)) (some (.handler fg.2))).1 pid hs := rfl
    set w1 := (thenP w pid (some (.handler fg.1)) (some (.handler fg.2))).1 with hw1
    have hp1 : ¬ (getP w1 pid).state = .pending := by
      rw [hq]
      exact hp
    have hl1 : pid < w1.heap.length := by
      rw [heapLen_thenP]
      omega
    have hlen1 : w1.heap.length = w.heap.length + 1 := heapLen_thenP w pid _ _
    obtain ⟨iL, iLog, iT, iA, iN, iS, iR, iQ, iOther, iFresh⟩ := ih w1 pid hp1 hl1
    have ht1 : w1.tasks = w.tasks ++ [(w.now, STask.publish pid)] := by
      rw [tasks_thenP w pid _ _ hl, if_pos hp]
    have hn1 : w1.now = w.now := now_thenP w pid _ _
    refine ⟨?_, ?_, ?_, ?_, ?_, ?_, ?_, ?_, ?_, ?_⟩
    · rw [hstep, iL, hlen1]
      simp
      omega
    · rw [hstep, iLog, hw1, log_thenP]
    · rw [hstep, iT, ht1, hn1]
      simp [List.replicate_succ, List.append_assoc]
    · rw [hstep, iA, hw1, alls_thenP]
    · rw [hstep, iN, hn1]
    · rw [hstep, iS, hq]
    · rw [hstep, iR, hq]
    · rw [hstep, iQ, hq, hlen1]
      simp [mkReacts, List.append_assoc]
    · intro q hql hqp
      rw [hstep, iOther q (by omega) hqp, hw1, getP_thenP_ne _ _ _ _ _ hqp hql]
    · intro j h1 h2
      have hc : (fg :: hs).length = hs.length + 1 := rfl
      rw [hstep]
      rcases Nat.eq_or_lt_of_le h1 with he | hlt
      · rw [iOther j (by omega) (by omega), ← he, hw1, getP_thenP_child _ _ _ _ hl]
      · exact iFresh j (by omega) (by omega)

/-- The slot a reaction dispatches on side `side` when both slots are
caller-supplied handlers. -/
theorem reactionSel (side : PState) (f g : HFn) :
    (match side with
     | PState.resolved => RPred.handler f
     | _ => RPred.handler g) = .handler (sideH side (f, g)) := by
  cases side <;> rfl

/-- A reaction whose two slots are caller-supplied handlers, dispatched on a
settled side, logs the invocation and settles its child according to the
handler's outcome — provided the handler does not return a Promise (the
tame case). -/
theorem runReaction_handler_pair (w : World) (side : PState) (f g : HFn) (c : Nat)
    (res : Value) (ht : tameB (sideH side (f, g)) res = true) :
    runReaction w side ⟨.handler f, .handler g, c⟩ res =
      fulfillP {w with log := w.log ++ [(c, side, res)]} c
        (outcomeOf (sideH side (f, g)) res).1 (outcomeOf (sideH side (f, g)) res).2 := by
  unfold runReaction
  dsimp only
  rw [reactionSel]
  unfold runRPred
  rcases hev : evalHFn (sideH side (f, g)) res with e | v
  · dsimp only
    rw [hev]
    unfold outcomeOf
    rw [hev]
    rfl
  · unfold tameB at ht
    rw [hev] at ht
    dsimp only
    rw [hev]
    unfold outcomeOf
    rw [hev]
    cases v
    case promise => simp at ht
    all_goals rfl

/-- Draining a settled promise whose queue holds handler-pair reactions
with tame outcomes (children numbered consecutively from `base`, all still
pending and in the heap): every reaction is dispatched exactly once, in
queue order, on the settled side with the settled payload; each child is
settled by its handler's outcome and a notification for it is scheduled;
the queue ends empty and nothing else changes. -/
theorem drain_tame : ∀ (hs : List (HFn × HFn)) (fuel : Nat) (w : World) (pid : Nat)
    (k : PState) (r : Value) (base : Nat),
    ¬ k = .pending →
    (getP w pid).state = k →
    (getP w pid).result = r →
    (getP w pid).queue = mkReacts base hs →
    pid < base →
    base + hs.length ≤ w.heap.length →
    (∀ i, i < hs.length → (getP w (base + i)).state = .pending) →
    (∀ fg ∈ hs, tameB (sideH k fg) r = true) →
    hs.length < fuel →
    (invokeReactions fuel w pid k r).log = w.log ++ reactLog base k r hs.length ∧
    (invokeReactions fuel w pid k r).tasks = w.tasks ++ pubTasks w.now base hs.length ∧
    (invokeReactions fuel w pid k r).alls = w.alls ∧
    (invokeReactions fuel w pid k r).now = w.now ∧
    (invokeReactions fuel w pid k r).heap.length = w.heap.length ∧
    (getP (invokeReactions fuel w pid k r) pid).state = k ∧
    (getP (invokeReactions fuel w pid k r) pid).result = r ∧
    (getP (invokeReactions fuel w pid k r) pid).queue = [] ∧
    (∀ i, (hi : i < hs.length) →
      (getP (invokeReactions fuel w pid k r) (base + i)).state =
          (outcomeOf (sideH k (hs.get ⟨i, hi⟩)) r).1 ∧
      (getP (invokeReactions fuel w pid k r) (base + i)).result =
          (outcomeOf (sideH k (hs.get ⟨i, hi⟩)) r).2 ∧
      (getP (invokeReactions fuel w pid k r) (base + i)).queue =
          (getP w (base + i)).queue) ∧
    (∀ q, q ≠ pid → (q < base ∨ base + hs.length ≤ q) →
      getP (invokeReactions fuel w pid k r) q = getP w q) := by
  intro hs
  induction hs with
  | nil =>
    intro fuel w pid k r base hk hst hr hq hpb hbh hch htame hf
    match fuel, hf with
    | fuel + 1, _ =>
      unfold invokeReactions
      rw [hq]
      unfold mkReacts
      refine ⟨by simp [reactLog], by simp [pubTasks], rfl, rfl, rfl, hst, hr, ?_, ?_, ?_⟩
      · rw [hq]
        rfl
      · intro i hi
        simp at hi
      · intro q _ _
        rfl
  | cons fg hs ih =>
    intro fuel w pid k r base hk hst hr hq hpb hbh hch htame hf
    match fuel, hf with
    | fuel + 1, hf =>
    have hcl : (fg :: hs).length = hs.length + 1 := rfl
    have hbl : base < w.heap.length := by omega
    have hpl : pid < w.heap.length := by omega
    unfold invokeReactions
    rw [hq]
    unfold mkReacts
    dsimp only
    set w1 := updP w pid (fun p => {p with queue := mkReacts (base + 1) hs}) with hw1
    have hg1p : getP w1 pid = ⟨k, r, mkReacts (base + 1) hs⟩ := by
      rw [hw1, getP_updP_self _ _ _ hpl]
      cases hgw : getP w pid
      rw [hgw] at hst hr
      simp only at hst hr
      simp [hst, hr]
    have hg1o : ∀ q, q ≠ pid → getP w1 q = getP w q := by
      intro q hqe
      rw [hw1, getP_updP_ne _ _ _ _ hqe]
    have hbp : ¬ base = pid := by omega
    have htame0 : tameB (sideH k fg) r = true := htame fg (by simp)
    have hstep := runReaction_handler_pair w1 k fg.1 fg.2 base r htame0
    rw [hstep]
    set o := outcomeOf (sideH k fg) r with ho
    set w1L : World := {w1 with log := w1.log ++ [(base, k, r)]} with hw1L
    have hw1Lfacts : w1L.log = w.log ++ [(base, k, r)] ∧ w1L.tasks = w.tasks ∧
        w1L.alls = w.alls ∧ w1L.now = w.now ∧ w1L.heap.length = w.heap.length := by
      refine ⟨?_, rfl, rfl, rfl, by simp [hw1L, hw1, updP]⟩
      rw [hw1L]
      simp [hw1, updP]
    obtain ⟨hLlog, hLtasks, hLalls, hLnow, hLlen⟩ := hw1Lfacts
    have hgL : ∀ q, getP w1L q = getP w1 q := fun q => rfl
    have hchbase : (getP w1L base).state = .pending := by
      rw [hgL, hg1o base hbp]
      simpa using hch 0 (by simp)
    have hblL : base < w1L.heap.length := by omega
    set w2 := fulfillP w1L base o.1 o.2 with hw2
    have hg2base : getP w2 base = ⟨o.1, o.2, (getP w base).queue⟩ := by
      rw [hw2, getP_fulfillP_self _ _ _ _ hchbase hblL, hgL, hg1o base hbp]
    have hg2o : ∀ q, q ≠ base → getP w2 q = getP w1L q := by
      intro q hqe
      rw [hw2, getP_fulfillP_ne _ _ _ _ _ hqe]
    have hg2pid : getP w2 pid = ⟨k, r, mkReacts (base + 1) hs⟩ := by
      rw [hg2o pid (by omega), hgL, hg1p]
    have h2log : w2.log = w.log ++ [(base, k, r)] := by
      rw [hw2, log_fulfillP, hLlog]
    have h2tasks : w2.tasks = w.tasks ++ [(w.now, STask.publish base)] := by
      rw [hw2, tasks_fulfillP_pending _ _ _ _ hchbase, hLtasks, hLnow]
    have h2alls : w2.alls = w.alls := by
      rw [hw2, alls_fulfillP, hLalls]
    have h2now : w2.now = w.now := by
      rw [hw2, now_fulfillP, hLnow]
    have h2len : w2.heap.length = w.heap.length := by
      rw [hw2, heapLen_fulfillP, hLlen]
    have hch2 : ∀ i, i < hs.length → (getP w2 ((base + 1) + i)).state = .pending := by
      intro i hi
      rw [hg2o _ (by omega), hgL, hg1o _ (by omega)]
      have := hch (i + 1) (by omega)
      have harith : base + (i + 1) = base + 1 + i := by omega
      rw [harith] at this
      exact this
    obtain ⟨iLog, iTasks, iAlls, iNow, iLen, iS, iR, iQ, iCh, iOther⟩ :=
      ih fuel w2 pid k r (base + 1) hk (by rw [hg2pid]) (by rw [hg2pid])
        (by rw [hg2pid]) (by omega) (by omega) hch2
        (fun p hp => htame p (by simp [hp])) (by omega)
    refine ⟨?_, ?_, ?_, ?_, ?_, ?_, ?_, ?_, ?_, ?_⟩
    · rw [iLog, h2log, hcl]
      have he : reactLog base k r (hs.length + 1) =
          (base, k, r) :: reactLog (base + 1) k r hs.length := rfl
      rw [he]
      simp
    · rw [iTasks, h2tasks, h2now, hcl]
      have he : pubTasks w.now base (hs.length + 1) =
          (w.now, STask.publish base) :: pubTasks w.now (base + 1) hs.length := rfl
      rw [he]
      simp
    · rw [iAlls, h2alls]
    · rw [iNow, h2now]
    · rw [iLen, h2len]
    · exact iS
    · exact iR
    · exact iQ
    · intro i hi
      match i, hi with
      | 0, _ =>
        have h0 : base + 0 = base := by omega
        rw [h0, iOther base (by omega) (by omega), hg2base]
        exact ⟨rfl, rfl, rfl⟩
      | i + 1, hi =>
        have harith : base + (i + 1) = (base + 1) + i := by omega
        have hi' : i < hs.length := by
          rw [hcl] at hi
          omega
        obtain ⟨c1, c2, c3⟩ := iCh i hi'
        rw [harith]
        refine ⟨c1, c2, ?_⟩
        rw [c3, hg2o _ (by omega), hgL, hg1o _ (by omega)]
    · intro q hqp hqr
      have hqb : q ≠ base := by omega
      rw [iOther q hqp (by rw [hcl] at hqr; omega), hg2o q hqb, hgL, hg1o q hqp]

theorem firstMin_isSome : ∀ (a : Nat × STask) (l : List (Nat × STask)),
    (firstMin (a :: l)).isSome = true := by
  intro a l
  induction l generalizing a with
  | nil => rfl
  | cons b l ih =>
    unfold firstMin
    obtain ⟨v, hv⟩ := Option.isSome_iff_exists.1 (ih b)
    rw [hv]
    obtain ⟨d', t', r'⟩ := v
    by_cases hlt : d' < a.1 <;> simp [hlt]

/-- A task due now (time 0) runs before anything else, and the rest of the
queue keeps its order. -/
theorem firstMin_zero_head (t : STask) (rest : List (Nat × STask)) :
    firstMin ((0, t) :: rest) = some (0, t, rest) := by
  cases rest with
  | nil => rfl
  | cons b l =>
    unfold firstMin
    cases hfm : firstMin (b :: l) with
    | none =>
      have := firstMin_isSome b l
      rw [hfm] at this
      simp at this
    | some v =>
      obtain ⟨d', t', r'⟩ := v
      simp

theorem invokeReactions_empty (df : Nat) (w : World) (pid : Nat) (k : PState) (r : Value)
    (h : (getP w pid).queue = []) : invokeReactions df w pid k r = w := by
  cases df with
  | zero => rfl
  | succ n =>
    unfold invokeReactions
    rw [h]

theorem runTask_publish_empty (df : Nat) (w : World) (pid : Nat)
    (h : (getP w pid).queue = []) : runTask df w (.publish pid) = w := by
  unfold runTask
  dsimp only
  cases hst : (getP w pid).state
  · rfl
  · exact invokeReactions_empty df w pid _ _ h
  · exact invokeReactions_empty df w pid _ _ h

theorem stepW_zero_head (df : Nat) (w : World) (t : STask) (rest : List (Nat × STask))
    (hw : w.tasks = (0, t) :: rest) :
    stepW df w = some (runTask df {w with tasks := rest, now := 0} t) := by
  unfold stepW
  rw [hw, firstMin_zero_head]

theorem runSteps_no_tasks (n df : Nat) (w : World) (h : w.tasks = []) :
    runSteps n df w = w := by
  cases n with
  | zero => rfl
  | succ m =>
    unfold runSteps stepW
    rw [h]
    rfl

theorem runSteps_succ (n df : Nat) (w : World) :
    runSteps (n + 1) df w =
      (match stepW df w with
       | none => w
       | some w' => runSteps n df w') := rfl

/-- Zero-due notification tasks for promises with empty queues are consumed
without any effect. -/
theorem runSteps_consume_pubs : ∀ (ps : List (Nat × STask)) (n df : Nat) (w : World)
    (rest : List (Nat × STask)),
    w.now = 0 → w.tasks = ps ++ rest →
    (∀ e ∈ ps, ∃ q, e = (0, STask.publish q) ∧ (getP w q).queue = []) →
    runSteps (ps.length + n) df w = runSteps n df {w with tasks := rest} := by
  intro ps
  induction ps with
  | nil =>
    intro n df w rest hnow htasks hps
    simp only [List.nil_append] at htasks
    have hw : ({w with tasks := rest} : World) = w := by
      rw [← htasks]
    rw [hw]
    have h0 : List.length ([] : List (Nat × STask)) + n = n := by
      simp
    rw [h0]
  | cons e ps ih =>
    intro n df w rest hnow htasks hps
    obtain ⟨q, he, hq⟩ := hps e (by simp)
    have hlen : (e :: ps).length + n = (ps.length + n) + 1 := by
      simp
      omega
    rw [hlen, runSteps_succ]
    rw [stepW_zero_head df w (STask.publish q) (ps ++ rest) (by rw [htasks, he]; simp)]
    dsimp only
    have hw' : ({w with tasks := ps ++ rest, now := 0} : World) =
        {w with tasks := ps ++ rest} := by
      rw [← hnow]
    rw [hw', runTask_publish_empty df {w with tasks := ps ++ rest} q hq]
    exact ih n df {w with tasks := ps ++ rest} rest hnow rfl
      (fun e' he' => by
        obtain ⟨q', h1, h2⟩ := hps e' (by simp [he'])
        exact ⟨q', h1, h2⟩)

theorem runTask_publish_settled (df : Nat) (w : World) (pid : Nat) (k : PState)
    (hk : ¬ k = .pending) (hst : (getP w pid).state = k) :
    runTask df w (.publish pid) = invokeReactions df w pid k (getP w pid).result := by
  unfold runTask
  dsimp only
  rw [hst]
  cases k
  · exact absurd rfl hk
  · rfl
  · rfl

theorem reactLog_eq_range : ∀ (n base : Nat) (k : PState) (r : Value),
    reactLog base k r n = (List.range n).map (fun i => (base + i, k, r)) := by
  intro n
  induction n with
  | zero =>
    intro base k r
    rfl
  | succ m ih =>
    intro base k r
    have he : reactLog base k r (m + 1) = (base, k, r) :: reactLog (base + 1) k r m := rfl
    rw [he, ih (base + 1), List.range_succ_eq_map]
    simp [Function.comp, Nat.add_comm, Nat.add_assoc, Nat.add_left_comm]

theorem pubTasks_mem : ∀ (n base now : Nat) (e : Nat × STask), e ∈ pubTasks now base n →
    ∃ j, base ≤ j ∧ j < base + n ∧ e = (now, STask.publish j) := by
  intro n
  induction n with
  | zero =>
    intro base now e he
    simp [pubTasks] at he
  | succ m ih =>
    intro base now e he
    have hd : pubTasks now base (m + 1) = (now, STask.publish base) :: pubTasks now (base + 1) m := rfl
    rw [hd] at he
    rcases List.mem_cons.1 he with h1 | h2
    · exact ⟨base, Nat.le_refl _, by omega, h1⟩
    · obtain ⟨j, hj1, hj2, hj3⟩ := ih (base + 1) now e h2
      exact ⟨j, by omega, by omega, hj3⟩

theorem pubTasks_length : ∀ (n base now : Nat), (pubTasks now base n).length = n := by
  intro n
  induction n with
  | zero =>
    intro base now
    rfl
  | succ m ih =>
    intro base now
    have hd : pubTasks now base (m + 1) = (now, STask.publish base) :: pubTasks now (base + 1) m := rfl
    rw [hd]
    simp [ih]

/-- Claim C3: for a Future settled `(k, r)` and any reaction pairs attached
before (`hsB`) and after (`hsA`) settlement, running the event loop to
quiescence invokes each attached pair exactly once, on the side matching
the final state, with the settled payload, in attachment order (children
ids `1 .. B` then `1+B .. B+A` in order).  Handlers are restricted to tame
outcomes (not returning a Future) on the settled payload. -/
theorem c3_multi_attach_fanout (k : PState) (r : Value) (hsB hsA : List (HFn × HFn))
    (hk : ¬ k = .pending)
    (htB : ∀ fg ∈ hsB, tameB (sideH k fg) r = true)
    (htA : ∀ fg ∈ hsA, tameB (sideH k fg) r = true) :
    (fanoutRun k r hsB hsA).log = fanoutLog k r hsB.length hsA.length := by
  have hpr : newPromise emptyWorld (laterCode k 0 r) =
      (⟨[⟨.pending, .null, []⟩], [], [(0, .settle 0 k r)], [], 0⟩, 0) := by
    cases k
    · exact absurd rfl hk
    · rfl
    · rfl
  set B := hsB.length with hB
  set A := hsA.length with hA
  unfold fanoutRun
  rw [hpr]
  dsimp only
  set w1 : World := ⟨[⟨.pending, .null, []⟩], [], [(0, .settle 0 k r)], [], 0⟩ with hw1
  obtain ⟨a2len, a2log, a2tasks, a2alls, a2now, a2st, a2res, a2q, a2other, a2fresh⟩ :=
    attachPairs_pending hsB w1 0 rfl (by simp [hw1])
  set w2 := attachPairs w1 0 hsB with hw2
  have hw1len : w1.heap.length = 1 := rfl
  rw [hw1len] at a2len a2q a2other a2fresh
  have a2q' : (getP w2 0).queue = mkReacts 1 hsB := by
    rw [a2q]
    rfl
  have hst1 : stepW (B + 1) w2 = some (runTask (B + 1)
      {w2 with tasks := [], now := 0} (.settle 0 k r)) :=
    stepW_zero_head _ _ _ _ (by rw [a2tasks])
  set w2' : World := {w2 with tasks := [], now := 0} with hw2'
  have hg2' : ∀ q, getP w2' q = getP w2 q := fun q => rfl
  set w3a := fulfillP w2' 0 k r with hw3a
  have h2'len : w2'.heap.length = 1 + B := by
    rw [hw2']
    exact a2len
  have h3ast : getP w3a 0 = ⟨k, r, mkReacts 1 hsB⟩ := by
    rw [hw3a, getP_fulfillP_self _ _ _ _ (by rw [hg2', a2st]) (by rw [h2'len]; omega)]
    rw [hg2', a2q']
  have h3atasks : w3a.tasks = [(0, STask.publish 0)] := by
    rw [hw3a, tasks_fulfillP_pending _ _ _ _ (by rw [hg2', a2st])]
    rfl
  have h3alog : w3a.log = [] := by
    rw [hw3a, log_fulfillP, hw2']
    dsimp only
    rw [a2log]
  have h3anow : w3a.now = 0 := by
    rw [hw3a, now_fulfillP]
  have h3alen : w3a.heap.length = 1 + B := by
    rw [hw3a, heapLen_fulfillP, h2'len]
  have h3ao : ∀ q, q ≠ 0 → getP w3a q = getP w2 q := by
    intro q hq
    rw [hw3a, getP_fulfillP_ne _ _ _ _ _ hq, hg2']
  have hst2 : stepW (B + 1) w3a = some (runTask (B + 1)
      {w3a with tasks := [], now := 0} (.publish 0)) :=
    stepW_zero_head _ _ _ _ (by rw [h3atasks])
  set w3b : World := {w3a with tasks := [], now := 0} with hw3b
  have hg3b : ∀ q, getP w3b q = getP w3a q := fun q => rfl
  have h3blen : w3b.heap.length = 1 + B := h3alen
  obtain ⟨d3log, d3tasks, d3alls, d3now, d3len, d3st, d3res, d3q, d3ch, d3other⟩ :=
    drain_tame hsB (B + 1) w3b 0 k r 1 hk
      (by rw [hg3b, h3ast]) (by rw [hg3b, h3ast]) (by rw [hg3b, h3ast])
      (by omega) (by rw [h3blen])
      (by
        intro i hi
        rw [hg3b, h3ao (1 + i) (by omega), a2fresh (1 + i) (by omega) (by omega)])
      htB (by omega)
  set W3 := invokeReactions (B + 1) w3b 0 k r with hW3
  have ephase1 : runSteps 2 (B + 1) w2 = W3 := by
    rw [runSteps_succ, hst1]
    dsimp only
    have hrt1 : runTask (B + 1) w2' (.settle 0 k r) = w3a := rfl
    rw [hrt1, runSteps_succ, hst2]
    dsimp only
    rw [runTask_publish_settled (B + 1) w3b 0 k hk (by rw [hg3b, h3ast]),
      show (getP w3b 0).result = r from by rw [hg3b, h3ast]]
    rfl
  rw [ephase1]
  have hW3log : W3.log = reactLog 1 k r B := by
    rw [d3log, hw3b]
    dsimp only
    rw [h3alog]
    exact List.nil_append _
  have hW3tasks : W3.tasks = pubTasks 0 1 B := by
    rw [d3tasks, hw3b]
    dsimp only
    exact List.nil_append _
  have hW3now : W3.now = 0 := by
    rw [d3now]
  have hW3len : W3.heap.length = 1 + B := by
    rw [d3len, h3blen]
  have hchq : ∀ j, 1 ≤ j → j < 1 + B → (getP W3 j).queue = [] := by
    intro j h1 h2
    have hj : j = 1 + (j - 1) := by omega
    rw [hj, (d3ch (j - 1) (by omega)).2.2, hg3b, h3ao _ (by omega),
      a2fresh _ (by omega) (by omega)]
  obtain ⟨a4len, a4log, a4tasks, a4alls, a4now, a4st, a4res, a4q, a4other, a4fresh⟩ :=
    attachPairs_settled hsA W3 0 (by rw [d3st]; exact hk) (by omega)
  set w4 := attachPairs W3 0 hsA with hw4
  rw [hW3len] at a4len a4q a4other a4fresh
  have h4st : (getP w4 0).state = k := by
    rw [a4st, d3st]
  have h4res : (getP w4 0).result = r := by
    rw [a4res, d3res]
  have h4q : (getP w4 0).queue = mkReacts (1 + B) hsA := by
    rw [a4q, d3q]
    rfl
  have h4log : w4.log = reactLog 1 k r B := by
    rw [a4log, hW3log]
  have h4now : w4.now = 0 := by
    rw [a4now, hW3now]
  have h4tasks : w4.tasks = pubTasks 0 1 B ++ List.replicate A (0, STask.publish 0) := by
    rw [a4tasks, hW3tasks, hW3now]
  have h4len : w4.heap.length = 1 + B + A := by
    rw [a4len]
  have h4chq : ∀ j, 1 ≤ j → j < 1 + B → (getP w4 j).queue = [] := by
    intro j h1 h2
    rw [a4other j (by omega) (by omega), hchq j h1 h2]
  have hsplit : 2 * (B + A) + 4 = (pubTasks 0 1 B).length + (2 * A + B + 4) := by
    rw [pubTasks_length]
    omega
  rw [hsplit, runSteps_consume_pubs (pubTasks 0 1 B) (2 * A + B + 4) (A + 1) w4
    (List.replicate A (0, STask.publish 0)) h4now h4tasks
    (by
      intro e he
      obtain ⟨j, hj1, hj2, hj3⟩ := pubTasks_mem B 1 0 e he
      exact ⟨j, hj3, h4chq j hj1 hj2⟩)]
  set w5 : World := {w4 with tasks := List.replicate A (0, STask.publish 0)} with hw5
  have hg5 : ∀ q, getP w5 q = getP w4 q := fun q => rfl
  have h5now : w5.now = 0 := h4now
  rcases Nat.eq_zero_or_pos A with hA0 | hApos
  · -- no pairs attached after settlement: nothing left to do
    rw [hA0]
    have h5t : w5.tasks = [] := by
      rw [hw5]
      dsimp only
      rw [hA0]
      rfl
    rw [runSteps_no_tasks _ _ _ h5t]
    have : w5.log = reactLog 1 k r B := h4log
    rw [this]
    unfold fanoutLog
    rw [reactLog_eq_range]
    simp
  · obtain ⟨m, hm⟩ : ∃ m, A = m + 1 := ⟨A - 1, by omega⟩
    have h5t : w5.tasks = (0, STask.publish 0) :: List.replicate m (0, STask.publish 0) := by
      rw [hw5]
      dsimp only
      rw [hm, List.replicate_succ]
    have hn1 : 2 * A + B + 4 = (2 * m + B + 5) + 1 := by omega
    rw [hn1, runSteps_succ, stepW_zero_head _ w5 _ _ h5t]
    dsimp only
    set w6 : World := {w5 with tasks := List.replicate m (0, STask.publish 0), now := 0}
      with hw6
    have hg6 : ∀ q, getP w6 q = getP w4 q := fun q => rfl
    have h6now : w6.now = 0 := rfl
    have h6len : w6.heap.length = 1 + B + A := h4len
    have h6log : w6.log = reactLog 1 k r B := h4log
    rw [runTask_publish_settled (A + 1) w6 0 k hk (by rw [hg6, h4st]),
      show (getP w6 0).result = r from by rw [hg6, h4res]]
    obtain ⟨d6log, d6tasks, d6alls, d6now, d6len, d6st, d6res, d6q, d6ch, d6other⟩ :=
      drain_tame hsA (A + 1) w6 0 k r (1 + B) hk
        (by rw [hg6, h4st]) (by rw [hg6, h4res]) (by rw [hg6, h4q])
        (by omega) (by rw [h6len])
        (by
          intro i hi
          rw [hg6, a4fresh (1 + B + i) (by omega) (by omega)])
        htA (by omega)
    set W6 := invokeReactions (A + 1) w6 0 k r with hW6
    have hW6log : W6.log = reactLog 1 k r B ++ reactLog (1 + B) k r A := by
      rw [d6log, h6log]
    have hW6tasks : W6.tasks =
        (List.replicate m (0, STask.publish 0) ++ pubTasks 0 (1 + B) A) ++ [] := by
      rw [d6tasks]
      have : w6.tasks = List.replicate m (0, STask.publish 0) := rfl
      rw [this, h6now]
      simp
    have hW6chA : ∀ j, 1 + B ≤ j → j < 1 + B + A → (getP W6 j).queue = [] := by
      intro j h1 h2
      have hj : j = (1 + B) + (j - (1 + B)) := by omega
      rw [hj, (d6ch (j - (1 + B)) (by omega)).2.2, hg6,
        a4fresh _ (by omega) (by omega)]
    have hW6q0 : (getP W6 0).queue = [] := d6q
    have hn2 : 2 * m + B + 5 =
        (List.replicate m ((0 : Nat), STask.publish 0) ++ pubTasks 0 (1 + B) A).length +
          (B + 4) := by
      rw [List.length_append, List.length_replicate, pubTasks_length]
      omega
    rw [hn2, runSteps_consume_pubs _ _ _ W6 [] (by rw [d6now, h6now]) hW6tasks
      (by
        intro e he
        rcases List.mem_append.1 he with h1 | h2
        · have := List.eq_of_mem_replicate h1
          exact ⟨0, this, hW6q0⟩
        · obtain ⟨j, hj1, hj2, hj3⟩ := pubTasks_mem A (1 + B) 0 e h2
          exact ⟨j, hj3, hW6chA j hj1 hj2⟩)]
    rw [runSteps_no_tasks _ _ _ rfl]
    have : ({W6 with tasks := ([] : List (Nat × STask))} : World).log = W6.log := rfl
    rw [this, hW6log]
    unfold fanoutLog
    rw [reactLog_eq_range, reactLog_eq_range]

theorem log_resolveP (w : World) (v : Value) : ((resolveP w v).1).log = w.log := by
  unfold resolveP
  cases v <;> rfl

theorem log_foldl {α : Type} (f : World → α → World) (h : ∀ w a, (f w a).log = w.log) :
    ∀ (l : List α) (w : World), (l.foldl f w).log = w.log := by
  intro l
  induction l with
  | nil =>
    intro w
    rfl
  | cons a l ih =>
    intro w
    have : (a :: l).foldl f w = l.foldl f (f w a) := rfl
    rw [this, ih, h]

/-- Claim C1: no engine operation that attaches a reaction or constructs a
Future (construction, `then`, `catch`, the `resolved` / `rejected` /
`allOf` / `firstOf` combinators) ever invokes a handler within its own
synchronous call: the observation log — which records every handler
invocation — is unchanged by each of them.  Handlers run only when the
scheduler later executes a notification task (`runTask`). -/
theorem c1_no_synchronous_invocation :
    (∀ (w : World) (pid : Nat) (a b : Option RPred), ((thenP w pid a b).1).log = w.log) ∧
    (∀ (w : World) (pid : Nat) (b : Option RPred), ((catchP w pid b).1).log = w.log) ∧
    (∀ (w : World) (e : ExecCode), ((newPromise w e).1).log = w.log) ∧
    (∀ (w : World) (v : Value), ((resolveP w v).1).log = w.log) ∧
    (∀ (w : World) (v : Value), ((rejectP w v).1).log = w.log) ∧
    (∀ (w : World) (vs : List Value), ((allP w vs).1).log = w.log) ∧
    (∀ (w : World) (vs : List Value), ((raceP w vs).1).log = w.log) := by
  refine ⟨log_thenP, log_catchP, ?_, log_resolveP, fun w v => rfl, ?_, ?_⟩
  · intro w e
    unfold newPromise
    dsimp only
    cases e
    · rfl
    · exact log_fulfillP _ _ _ _
    · exact log_fulfillP _ _ _ _
    · rfl
    · rfl
    · exact log_fulfillP _ _ _ _
  · intro w vs
    unfold allP
    dsimp only
    split
    · exact log_fulfillP _ _ _ _
    · exact log_foldl _ (fun wa iv => by
        rw [log_thenP, log_resolveP]) vs.enum _
  · intro w vs
    unfold raceP
    dsimp only
    rw [log_foldl _ (fun wa v => by
      rw [log_thenP, log_resolveP]) vs _]
    split
    · exact log_fulfillP _ _ _ _
    · rfl

theorem applySettles_cons (w : World) (pid : Nat) (c : Bool × Value)
    (cs : List (Bool × Value)) :
    applySettles w pid (c :: cs) =
      applySettles (if c.1 then execReject w pid c.2 else execResolve w pid c.2) pid cs := rfl

theorem applySettles_settled : ∀ (cs : List (Bool × Value)) (w : World) (pid : Nat),
    ¬ (getP w pid).state = .pending → applySettles w pid cs = w := by
  intro cs
  induction cs with
  | nil =>
    intro w pid _
    rfl
  | cons c cs ih =>
    intro w pid h
    rw [applySettles_cons]
    by_cases hc : c.1
    · rw [if_pos hc, execReject, fulfillP_settled _ _ _ _ h, ih _ _ h]
    · rw [if_neg hc, execResolve, fulfillP_settled _ _ _ _ h, ih _ _ h]

theorem jsResolve_pending (j : JsWorld) (v : Value) (h : j.state = .pending) :
    (jsResolve j v).state = .resolved ∧ (jsResolve j v).value = v := by
  unfold jsResolve
  rw [if_neg (by simp [h])]
  unfold jsFulfill jsDoResolve
  exact ⟨rfl, rfl⟩

theorem jsReject_pending (j : JsWorld) (v : Value) (h : j.state = .pending) :
    (jsReject j v).state = .rejected ∧ (jsReject j v).reason = v := by
  unfold jsReject
  rw [if_neg (by simp [h])]
  unfold jsFulfill jsDoReject
  cases hr : j.onRejected <;> exact ⟨rfl, rfl⟩

theorem jsResolve_settled (j : JsWorld) (v : Value) (h : ¬ j.state = .pending) :
    jsResolve j v = j := by
  unfold jsResolve
  rw [if_pos h]

theorem jsReject_settled (j : JsWorld) (v : Value) (h : ¬ j.state = .pending) :
    jsReject j v = j := by
  unfold jsReject
  rw [if_pos h]

theorem jsApplySettles_cons (j : JsWorld) (c : Bool × Value) (cs : List (Bool × Value)) :
    jsApplySettles j (c :: cs) =
      jsApplySettles (if c.1 then jsReject j c.2 else jsResolve j c.2) cs := rfl

theorem jsApplySettles_settled : ∀ (cs : List (Bool × Value)) (j : JsWorld),
    ¬ j.state = .pending → jsApplySettles j cs = j := by
  intro cs
  induction cs with
  | nil =>
    intro j _
    rfl
  | cons c cs ih =>
    intro j h
    rw [jsApplySettles_cons]
    by_cases hc : c.1
    · rw [if_pos hc, jsReject_settled _ _ h, ih _ h]
    · rw [if_neg hc, jsResolve_settled _ _ h, ih _ h]

/-- Claim C2: on a pending promise, only the first call to the injected
settle closures (in either engine) changes the state and stores its
payload; the whole remaining call sequence, of either kind, leaves the
world untouched (first settlement wins; the result is immutable). -/
theorem c2_first_settle_wins :
    (∀ (w : World) (pid : Nat) (c : Bool × Value) (cs : List (Bool × Value)),
      (getP w pid).state = .pending → pid < w.heap.length →
      applySettles w pid (c :: cs) = applySettles w pid [c] ∧
      (getP (applySettles w pid (c :: cs)) pid).state =
        (if c.1 then .rejected else .resolved) ∧
      (getP (applySettles w pid (c :: cs)) pid).result = c.2) ∧
    (∀ (j : JsWorld) (c : Bool × Value) (cs : List (Bool × Value)),
      j.state = .pending →
      jsApplySettles j (c :: cs) = jsApplySettles j [c] ∧
      (jsApplySettles j (c :: cs)).state = (if c.1 then .rejected else .resolved) ∧
      (if c.1 then (jsApplySettles j (c :: cs)).reason
       else (jsApplySettles j (c :: cs)).value) = c.2) := by
  constructor
  · intro w pid c cs hp hl
    have hone : getP (if c.1 then execReject w pid c.2 else execResolve w pid c.2) pid =
        ⟨if c.1 then .rejected else .resolved, c.2, (getP w pid).queue⟩ := by
      by_cases hc : c.1
      · rw [if_pos hc, if_pos hc, execReject, getP_fulfillP_self _ _ _ _ hp hl]
      · rw [if_neg hc, if_neg hc, execResolve, getP_fulfillP_self _ _ _ _ hp hl]
    have hset : ¬ (getP (if c.1 then execReject w pid c.2 else execResolve w pid c.2)
        pid).state = .pending := by
      rw [hone]
      by_cases hc : c.1 <;> simp [hc]
    have heq : applySettles w pid (c :: cs) =
        (if c.1 then execReject w pid c.2 else execResolve w pid c.2) := by
      rw [applySettles_cons, applySettles_settled _ _ _ hset]
    have heq1 : applySettles w pid [c] =
        (if c.1 then execReject w pid c.2 else execResolve w pid c.2) := by
      rw [applySettles_cons, applySettles_settled _ _ _ hset]
    refine ⟨heq.trans heq1.symm, ?_, ?_⟩
    · rw [heq, hone]
    · rw [heq, hone]
  · intro j c cs hp
    have hone : (if c.1 then jsReject j c.2 else jsResolve j c.2).state =
        (if c.1 then .rejected else .resolved) := by
      by_cases hc : c.1
      · rw [if_pos hc, if_pos hc]
        exact (jsReject_pending j c.2 hp).1
      · rw [if_neg hc, if_neg hc]
        exact (jsResolve_pending j c.2 hp).1
    have hset : ¬ (if c.1 then jsReject j c.2 else jsResolve j c.2).state = .pending := by
      rw [hone]
      by_cases hc : c.1 <;> simp [hc]
    have heq : jsApplySettles j (c :: cs) =
        (if c.1 then jsReject j c.2 else jsResolve j c.2) := by
      rw [jsApplySettles_cons, jsApplySettles_settled _ _ hset]
    have heq1 : jsApplySettles j [c] =
        (if c.1 then jsReject j c.2 else jsResolve j c.2) := by
      rw [jsApplySettles_cons, jsApplySettles_settled _ _ hset]
    refine ⟨heq.trans heq1.symm, heq ▸ hone, ?_⟩
    by_cases hc : c.1
    · rw [if_pos hc, heq, if_pos hc]
      exact (jsReject_pending j c.2 hp).2
    · rw [if_neg hc, heq, if_neg hc]
      exact (jsResolve_pending j c.2 hp).2

/-- Witness for C2 at a concrete input: a resolve call followed by a reject
and another resolve; the promise ends resolved with the first payload in
both engines. -/
theorem c2_first_settle_wins_witness :
    (getP (applySettles (newPromise emptyWorld .skip).1 0
        [(false, .num 1), (true, .num 2), (false, .num 3)]) 0).result = .num 1 ∧
    (jsApplySettles jsPending [(false, .num 1), (true, .num 2), (false, .num 3)]).value =
      .num 1 := by
  constructor
  · have h := (c2_first_settle_wins.1 (newPromise emptyWorld .skip).1 0
      (false, .num 1) [(true, .num 2), (false, .num 3)] rfl (by decide)).2.2
    exact h
  · have h := (c2_first_settle_wins.2 jsPending
      (false, .num 1) [(true, .num 2), (false, .num 3)] rfl).2.2
    exact h

set_option maxHeartbeats 1600000 in
/-- Claim C4, counterexample to the recursive-flattening clause: with
`h` a Future fulfilled with 42 (id 0) and `g` a Future whose executor
resolved it with `h` itself as payload (id 1),
`resolved(1).then(v => g)` produces a child (id 3) that fulfills with the
Future `h` as its value — not with a non-Future terminal value. -/
theorem c4_counterexample :
    (getP c4CounterWorld 3).state = .resolved ∧
    (getP c4CounterWorld 3).result = .promise 0 := by decide

set_option maxHeartbeats 1600000 in
/-- Claim C4 (amended): a `then` handler returning a Future `g` makes the
child mirror `g`'s settled kind and payload (one level of forwarding via
`g.then`), for either kind and any payload; and nesting built from `then`
chains does flatten to the terminal value (here 42), because each link
absorbs the Future its handler returns. -/
theorem c4_chain_flattening (kg : PState) (rg : Value) (hk : ¬ kg = .pending) :
    ((getP (c4Run kg rg) 2).state = kg ∧ (getP (c4Run kg rg) 2).result = rg) ∧
    ((getP c4ChainWorld 4).state = .resolved ∧
      (getP c4ChainWorld 4).result = .num 42) := by
  refine ⟨?_, by decide⟩
  cases kg
  · exact absurd rfl hk
  · have hrun : c4Run .resolved rg = runSteps 8 8
        (⟨[⟨.resolved, rg, []⟩,
           ⟨.resolved, .num 1, [⟨.handler (.const (.promise 0)), .handler .thrower, 2⟩]⟩,
           ⟨.pending, .null, []⟩], [], [(0, .publish 1)], [], 0⟩ : World) := rfl
    have s1 : stepW 8
        (⟨[⟨.resolved, rg, []⟩,
           ⟨.resolved, .num 1, [⟨.handler (.const (.promise 0)), .handler .thrower, 2⟩]⟩,
           ⟨.pending, .null, []⟩], [], [(0, .publish 1)], [], 0⟩ : World) =
        some (⟨[⟨.resolved, rg, [⟨.resolver 2, .rejecter 2, 3⟩]⟩,
           ⟨.resolved, .num 1, []⟩, ⟨.pending, .null, []⟩, ⟨.pending, .null, []⟩],
           [], [(0, .publish 0)], [(2, .resolved, .num 1)], 0⟩ : World) := rfl
    have s2 : stepW 8
        (⟨[⟨.resolved, rg, [⟨.resolver 2, .rejecter 2, 3⟩]⟩,
           ⟨.resolved, .num 1, []⟩, ⟨.pending, .null, []⟩, ⟨.pending, .null, []⟩],
           [], [(0, .publish 0)], [(2, .resolved, .num 1)], 0⟩ : World) =
        some (⟨[⟨.resolved, rg, []⟩, ⟨.resolved, .num 1, []⟩,
           ⟨.resolved, rg, []⟩, ⟨.resolved, .undef, []⟩],
           [], [(0, .publish 2), (0, .publish 3)], [(2, .resolved, .num 1)], 0⟩ : World) := rfl
    have s3 : runSteps 6 8
        (⟨[⟨.resolved, rg, []⟩, ⟨.resolved, .num 1, []⟩,
           ⟨.resolved, rg, []⟩, ⟨.resolved, .undef, []⟩],
           [], [(0, .publish 2), (0, .publish 3)], [(2, .resolved, .num 1)], 0⟩ : World) =
        (⟨[⟨.resolved, rg, []⟩, ⟨.resolved, .num 1, []⟩,
           ⟨.resolved, rg, []⟩, ⟨.resolved, .undef, []⟩],
           [], [], [(2, .resolved, .num 1)], 0⟩ : World) := by
      rw [show (6 : Nat) =
          ([((0 : Nat), STask.publish 2), (0, STask.publish 3)]).length + 4 from rfl,
        runSteps_consume_pubs [(0, .publish 2), (0, .publish 3)] 4 8
          (⟨[⟨.resolved, rg, []⟩, ⟨.resolved, .num 1, []⟩,
             ⟨.resolved, rg, []⟩, ⟨.resolved, .undef, []⟩],
             [], [(0, .publish 2), (0, .publish 3)], [(2, .resolved, .num 1)], 0⟩ : World)
          [] rfl rfl
          (by
            intro e he
            rcases List.mem_cons.1 he with h1 | h2
            · exact ⟨2, h1, rfl⟩
            · rcases List.mem_cons.1 h2 with h3 | h4
              · exact ⟨3, h3, rfl⟩
              · simp at h4)]
      exact runSteps_no_tasks 4 8 _ rfl
    rw [hrun, show (8 : Nat) = 7 + 1 from rfl, runSteps_succ, s1]
    dsimp only
    rw [show (7 : Nat) = 6 + 1 from rfl, runSteps_succ, s2]
    dsimp only
    rw [s3]
    exact ⟨rfl, rfl⟩
  · have hrun : c4Run .rejected rg = runSteps 8 8
        (⟨[⟨.rejected, rg, []⟩,
           ⟨.resolved, .num 1, [⟨.handler (.const (.promise 0)), .handler .thrower, 2⟩]⟩,
           ⟨.pending, .null, []⟩], [], [(0, .publish 1)], [], 0⟩ : World) := rfl
    have s1 : stepW 8
        (⟨[⟨.rejected, rg, []⟩,
           ⟨.resolved, .num 1, [⟨.handler (.const (.promise 0)), .handler .thrower, 2⟩]⟩,
           ⟨.pending, .null, []⟩], [], [(0, .publish 1)], [], 0⟩ : World) =
        some (⟨[⟨.rejected, rg, [⟨.resolver 2, .rejecter 2, 3⟩]⟩,
           ⟨.resolved, .num 1, []⟩, ⟨.pending, .null, []⟩, ⟨.pending, .null, []⟩],
           [], [(0, .publish 0)], [(2, .resolved, .num 1)], 0⟩ : World) := rfl
    have s2 : stepW 8
        (⟨[⟨.rejected, rg, [⟨.resolver 2, .rejecter 2, 3⟩]⟩,
           ⟨.resolved, .num 1, []⟩, ⟨.pending, .null, []⟩, ⟨.pending, .null, []⟩],
           [], [(0, .publish 0)], [(2, .resolved, .num 1)], 0⟩ : World) =
        some (⟨[⟨.rejected, rg, []⟩, ⟨.resolved, .num 1, []⟩,
           ⟨.rejected, rg, []⟩, ⟨.resolved, .undef, []⟩],
           [], [(0, .publish 2), (0, .publish 3)], [(2, .resolved, .num 1)], 0⟩ : World) := rfl
    have s3 : runSteps 6 8
        (⟨[⟨.rejected, rg, []⟩, ⟨.resolved, .num 1, []⟩,
           ⟨.rejected, rg, []⟩, ⟨.resolved, .undef, []⟩],
           [], [(0, .publish 2), (0, .publish 3)], [(2, .resolved, .num 1)], 0⟩ : World) =
        (⟨[⟨.rejected, rg, []⟩, ⟨.resolved, .num 1, []⟩,
           ⟨.rejected, rg, []⟩, ⟨.resolved, .undef, []⟩],
           [], [], [(2, .resolved, .num 1)], 0⟩ : World) := by
      rw [show (6 : Nat) =
          ([((0 : Nat), STask.publish 2), (0, STask.publish 3)]).length + 4 from rfl,
        runSteps_consume_pubs [(0, .publish 2), (0, .publish 3)] 4 8
          (⟨[⟨.rejected, rg, []⟩, ⟨.resolved, .num 1, []⟩,
             ⟨.rejected, rg, []⟩, ⟨.resolved, .undef, []⟩],
             [], [(0, .publish 2), (0, .publish 3)], [(2, .resolved, .num 1)], 0⟩ : World)
          [] rfl rfl
          (by
            intro e he
            rcases List.mem_cons.1 he with h1 | h2
            · exact ⟨2, h1, rfl⟩
            · rcases List.mem_cons.1 h2 with h3 | h4
              · exact ⟨3, h3, rfl⟩
              · simp at h4)]
      exact runSteps_no_tasks 4 8 _ rfl
    rw [hrun, show (8 : Nat) = 7 + 1 from rfl, runSteps_succ, s1]
    dsimp only
    rw [show (7 : Nat) = 6 + 1 from rfl, runSteps_succ, s2]
    dsimp only
    rw [s3]
    exact ⟨rfl, rfl⟩

/-- Witness for C4's amended theorem at a concrete input: the handler
returns a Future already rejected with 'nope'; the child rejects with
'nope'. -/
theorem c4_chain_flattening_witness :
    (getP (c4Run .rejected (.str "nope")) 2).state = .rejected ∧
    (getP (c4Run .rejected (.str "nope")) 2).result = .str "nope" :=
  (c4_chain_flattening .rejected (.str "nope") (by decide)).1

set_option maxHeartbeats 1600000 in
/-- Claim C5: a value thrown synchronously by an executor becomes the
rejection reason of the constructed Future (for every world and payload),
and in the chain `resolved(1).then(v => { throw 'boom'; }).then(...)
.catch(h)` the catch handler (child id 3) is invoked with reason 'boom'
(the full invocation log is computed), after which it recovers to a
fulfillment.  No throw escapes: every operation is total and settles a
Future instead. -/
theorem c5_throw_becomes_rejection :
    (∀ (w : World) (v : Value),
      (getP (newPromise w (.throwE v)).1 (newPromise w (.throwE v)).2).state = .rejected ∧
      (getP (newPromise w (.throwE v)).1 (newPromise w (.throwE v)).2).result = v) ∧
    c5World.log =
      [(1, .resolved, .num 1), (2, .rejected, .str "boom"), (3, .rejected, .str "boom")] ∧
    (getP c5World 2).state = .rejected ∧
    (getP c5World 2).result = .str "boom" ∧
    (getP c5World 3).state = .resolved ∧
    (getP c5World 3).result = .str "boom" := by
  refine ⟨?_, by decide, by decide, by decide, by decide, by decide⟩
  intro w v
  unfold newPromise
  dsimp only
  have h0 : getP {w with heap := w.heap ++ [⟨.pending, .null, []⟩]} w.heap.length =
      ⟨.pending, .null, []⟩ := getP_heapAppend_self w _
  have hl : w.heap.length < ({w with heap := w.heap ++ [⟨.pending, .null, []⟩]} : World).heap.length := by
    simp
  rw [execReject, getP_fulfillP_self _ _ _ _ (by rw [h0]) hl, h0]
  exact ⟨rfl, rfl⟩

theorem stepW_single (df : Nat) (w : World) (d : Nat) (t : STask)
    (hw : w.tasks = [(d, t)]) :
    stepW df w = some (runTask df {w with tasks := [], now := d} t) := by
  unfold stepW
  rw [hw]
  rfl

theorem c6_outcome (k : PState) (r : Value) (hk : ¬ k = .pending) :
    outcomeOf (sideH k (HFn.identity, HFn.thrower)) r = (k, r) := by
  cases k
  · exact absurd rfl hk
  · rfl
  · rfl

theorem c6_tame (k : PState) (r : Value) (hr : isPromiseV r = false) :
    tameB (sideH k (HFn.identity, HFn.thrower)) r = true := by
  cases k
  · rfl
  · cases r
    · rfl
    · rfl
    · rfl
    · rfl
    · rfl
    · simp [isPromiseV] at hr
  · rfl

/-- Drain a single no-handler (`then()`) reaction pair on a promise settled
`(k, r)` sitting at heap slot 0 with its fresh child at slot 1, then run
the event loop dry: the child ends settled with exactly `(k, r)`. -/
theorem clone_run_spec (w2 : World) (k : PState) (r : Value) (d : Nat) (n df : Nat)
    (hk : ¬ k = .pending) (hr : isPromiseV r = false)
    (hst : (getP w2 0).state = k) (hres : (getP w2 0).result = r)
    (hq : (getP w2 0).queue = mkReacts 1 [(HFn.identity, HFn.thrower)])
    (hlen : w2.heap.length = 2)
    (hch : getP w2 1 = ⟨.pending, .null, []⟩)
    (htasks : w2.tasks = [(d, STask.publish 0)])
    (hfuel : 1 ≤ n) (hdf : 2 ≤ df) :
    (getP (runSteps (n + 1) df w2) 1).state = k ∧
    (getP (runSteps (n + 1) df w2) 1).result = r := by
  rw [runSteps_succ, stepW_single df w2 d (.publish 0) htasks]
  dsimp only
  set w2a : World := {w2 with tasks := [], now := d} with hw2a
  have hg : ∀ q, getP w2a q = getP w2 q := fun q => rfl
  rw [runTask_publish_settled df w2a 0 k hk (by rw [hg, hst]),
    show (getP w2a 0).result = r from by rw [hg, hres]]
  match df, hdf with
  | df + 2, _ =>
  obtain ⟨dlog, dtasks, dalls, dnow, dlen, dst, dres, dq, dch, dother⟩ :=
    drain_tame [(HFn.identity, HFn.thrower)] (df + 2) w2a 0 k r 1 hk
      (by rw [hg, hst]) (by rw [hg, hres]) (by rw [hg, hq])
      (by omega)
      (by
        have h2 : w2a.heap.length = 2 := hlen
        have h3 : ([(HFn.identity, HFn.thrower)] : List (HFn × HFn)).length = 1 := rfl
        omega)
      (by
        intro i hi
        have hi0 : i = 0 := by simpa using hi
        rw [hi0, hg, hch])
      (by
        intro fg hfg
        have : fg = (HFn.identity, HFn.thrower) := by simpa using hfg
        rw [this]
        exact c6_tame k r hr)
      (by simp only [List.length_cons, List.length_nil]; omega)
  set W := invokeReactions (df + 2) w2a 0 k r with hW
  have hi1 : 0 < ([(HFn.identity, HFn.thrower)] : List (HFn × HFn)).length := by simp
  obtain ⟨cst, cres, cq⟩ := dch 0 hi1
  have hgg : ([(HFn.identity, HFn.thrower)] : List (HFn × HFn)).get ⟨0, hi1⟩ =
      (HFn.identity, HFn.thrower) := rfl
  rw [hgg] at cst cres
  rw [c6_outcome k r hk] at cst cres
  simp only [Nat.add_zero] at cst cres cq
  have hWtasks : W.tasks = [(w2a.now, STask.publish 1)] := by
    rw [dtasks]
    rfl
  have hWq1 : (getP W 1).queue = [] := by
    rw [cq, hg, hch]
  match n, hfuel with
  | n + 1, _ =>
  rw [runSteps_succ, stepW_single (df + 2) W w2a.now (.publish 1) hWtasks]
  dsimp only
  rw [show runTask (df + 2) {W with tasks := [], now := w2a.now} (.publish 1) =
      {W with tasks := [], now := w2a.now} from
    runTask_publish_empty _ _ _ hWq1]
  rw [runSteps_no_tasks n (df + 2) _ rfl]
  exact ⟨cst, cres⟩

/-- Claim C6: `then()` with neither handler returns a pass-through clone:
the omitted handlers default to identity and re-raise, so the child (id 1)
settles with exactly the parent's kind and (non-Future) payload — both
when attached after settlement and when attached while pending. -/
theorem c6_then_without_handlers (k : PState) (r : Value)
    (hk : ¬ k = .pending) (hr : isPromiseV r = false) :
    ((getP (c6Run k r) 1).state = k ∧ (getP (c6Run k r) 1).result = r) ∧
    ((getP (c6RunPending k r) 1).state = k ∧ (getP (c6RunPending k r) 1).result = r) := by
  constructor
  · -- attach after settlement
    set w0 : World := ⟨[⟨k, r, []⟩], [], [], [], 0⟩ with hw0
    have hshow : c6Run k r =
        runSteps 6 6 (attachPairs w0 0 [(HFn.identity, HFn.thrower)]) := rfl
    obtain ⟨alen, alog, atasks, aalls, anow, ast, ares, aq, aother, afresh⟩ :=
      attachPairs_settled [(HFn.identity, HFn.thrower)] w0 0 (by
        show ¬ (⟨k, r, []⟩ : PObj).state = .pending
        exact hk) (Nat.lt_succ_self 0)
    set w2 := attachPairs w0 0 [(HFn.identity, HFn.thrower)] with hw2
    have h6 : (6 : Nat) = 5 + 1 := rfl
    rw [hshow, h6]
    refine clone_run_spec w2 k r 0 5 6 hk hr ?_ ?_ ?_ ?_ ?_ ?_ (by omega) (by omega)
    · rw [ast]
      rfl
    · rw [ares]
      rfl
    · rw [aq]
      rfl
    · rw [alen]
      rfl
    · exact afresh 1 (Nat.le_refl 1) (Nat.lt_succ_self 1)
    · rw [atasks]
      rfl
  · -- attach while pending, settle later through the scheduler
    have hpr : newPromise emptyWorld (laterCode k 3 r) =
        (⟨[⟨.pending, .null, []⟩], [], [(3, .settle 0 k r)], [], 0⟩, 0) := by
      cases k
      · exact absurd rfl hk
      · rfl
      · rfl
    set w1 : World := ⟨[⟨.pending, .null, []⟩], [], [(3, .settle 0 k r)], [], 0⟩ with hw1
    have hshow : c6RunPending k r =
        runSteps 6 6 (attachPairs (newPromise emptyWorld (laterCode k 3 r)).1
          (newPromise emptyWorld (laterCode k 3 r)).2 [(HFn.identity, HFn.thrower)]) := rfl
    rw [hshow, hpr]
    dsimp only
    obtain ⟨alen, alog, atasks, aalls, anow, ast, ares, aq, aother, afresh⟩ :=
      attachPairs_pending [(HFn.identity, HFn.thrower)] w1 0 rfl (Nat.lt_succ_self 0)
    set w2 := attachPairs w1 0 [(HFn.identity, HFn.thrower)] with hw2
    have h6 : (6 : Nat) = 5 + 1 := rfl
    rw [h6, runSteps_succ, stepW_single 6 w2 3 (.settle 0 k r) (by rw [atasks])]
    dsimp only
    set w2a : World := {w2 with tasks := [], now := 3} with hw2a
    have hrt : runTask 6 w2a (.settle 0 k r) = fulfillP w2a 0 k r := rfl
    rw [hrt]
    set w3 := fulfillP w2a 0 k r with hw3
    have hg2a : ∀ q, getP w2a q = getP w2 q := fun q => rfl
    have hl0 : 0 < w2a.heap.length := by
      have h := alen
      have h2 : w2a.heap.length = w2.heap.length := rfl
      have h3 : w1.heap.length = 1 := rfl
      have h4 : ([(HFn.identity, HFn.thrower)] : List (HFn × HFn)).length = 1 := rfl
      omega
    have h3st : getP w3 0 = ⟨k, r, mkReacts 1 [(HFn.identity, HFn.thrower)]⟩ := by
      rw [hw3, getP_fulfillP_self _ _ _ _ (by rw [hg2a, ast]) hl0, hg2a]
      have hq2 : (getP w2 0).queue = mkReacts 1 [(HFn.identity, HFn.thrower)] := by
        rw [aq]
        rfl
      have hr2 : (getP w2 0).result = .null := by
        rw [ares]
        rfl
      cases hgw : getP w2 0
      rw [hgw] at hq2
      simp only at hq2
      rw [hq2]
    have h3tasks : w3.tasks = [(3, STask.publish 0)] := by
      rw [hw3, tasks_fulfillP_pending _ _ _ _ (by rw [hg2a, ast])]
      have h1 : w2a.tasks = [] := rfl
      have h2 : w2a.now = 3 := rfl
      rw [h1, h2]
      rfl
    have h3len : w3.heap.length = 2 := by
      rw [hw3, heapLen_fulfillP]
      have h2 : w2a.heap.length = w2.heap.length := rfl
      rw [h2, alen]
      rfl
    have h3ch : getP w3 1 = ⟨.pending, .null, []⟩ := by
      rw [hw3, getP_fulfillP_ne _ _ _ _ _ (by omega), hg2a]
      exact afresh 1 (Nat.le_refl 1) (Nat.lt_succ_self 1)
    have h5 : (5 : Nat) = 4 + 1 := rfl
    rw [h5]
    refine clone_run_spec w3 k r 3 4 6 hk hr ?_ ?_ ?_ h3len h3ch h3tasks (by omega) (by omega)
    · rw [h3st]
    · rw [h3st]
    · rw [h3st]

/-- Witness for C6 at a concrete input: a parent rejected with 'e' is
cloned by `then()`; the clone rejects with 'e' in both the
attach-after-settlement and attach-before-settlement scenarios. -/
theorem c6_then_without_handlers_witness :
    ((getP (c6Run .rejected (.str "e")) 1).state = .rejected ∧
      (getP (c6Run .rejected (.str "e")) 1).result = .str "e") ∧
    ((getP (c6RunPending .rejected (.str "e")) 1).state = .rejected ∧
      (getP (c6RunPending .rejected (.str "e")) 1).result = .str "e") :=
  c6_then_without_handlers .rejected (.str "e") (by decide) (by decide)

/-- Claim C9, counterexample: `firstOf([])` does not stay pending — the
returned Future is already fulfilled at construction time. -/
theorem c9_counterexample :
    (getP (raceP emptyWorld []).1 (raceP emptyWorld []).2).state = .resolved := rfl

/-- Claim C9 (amended): for the empty input sequence, `firstOf` returns a
Future that is fulfilled, with payload `undefined` (the bare `resolve()`
call of the empty-input branch), already at construction; it stays so in
every later turn. -/
theorem c9_empty_first_of_fulfills :
    (getP c9World.1 c9World.2).state = .resolved ∧
    (getP c9World.1 c9World.2).result = .undef ∧
    (∀ (n df : Nat), (getP (runSteps n df c9World.1) c9World.2).state = .resolved ∧
      (getP (runSteps n df c9World.1) c9World.2).result = .undef) := by
  refine ⟨rfl, rfl, ?_⟩
  intro n df
  cases n with
  | zero => exact ⟨rfl, rfl⟩
  | succ m =>
    rw [runSteps_succ, stepW_zero_head df c9World.1 (.publish 0) [] rfl]
    dsimp only
    rw [runTask_publish_empty df {c9World.1 with tasks := [], now := 0} 0 rfl]
    rw [runSteps_no_tasks m df {c9World.1 with tasks := [], now := 0} rfl]
    exact ⟨rfl, rfl⟩

theorem writeAll_length : ∀ (es : List (Nat × Value)) (l : List Value),
    (es.foldl (fun l e => l.set e.1 e.2) l).length = l.length := by
  intro es
  induction es with
  | nil =>
    intro l
    rfl
  | cons e es ih =>
    intro l
    have h : (e :: es).foldl (fun l e => l.set e.1 e.2) l =
        es.foldl (fun l e => l.set e.1 e.2) (l.set e.1 e.2) := rfl
    rw [h, ih, List.length_set]

theorem writeAll_getElem_notMem : ∀ (es : List (Nat × Value)) (l : List Value) (j : Nat),
    j ∉ es.map Prod.fst →
    (es.foldl (fun l e => l.set e.1 e.2) l)[j]? = l[j]? := by
  intro es
  induction es with
  | nil =>
    intro l j _
    rfl
  | cons e es ih =>
    intro l j hj
    simp only [List.map_cons, List.mem_cons] at hj
    push_neg at hj
    have h : (e :: es).foldl (fun l e => l.set e.1 e.2) l =
        es.foldl (fun l e => l.set e.1 e.2) (l.set e.1 e.2) := rfl
    rw [h, ih _ j hj.2, List.getElem?_set_ne (fun hh => hj.1 hh.symm)]

theorem writeAll_getElem_mem : ∀ (es : List (Nat × Value)) (l : List Value) (j : Nat)
    (v : Value), (es.map Prod.fst).Nodup → (j, v) ∈ es → j < l.length →
    (es.foldl (fun l e => l.set e.1 e.2) l)[j]? = some v := by
  intro es
  induction es with
  | nil =>
    intro l j v _ hm _
    simp at hm
  | cons e es ih =>
    intro l j v hnd hm hj
    simp only [List.map_cons, List.nodup_cons] at hnd
    have hstep : (e :: es).foldl (fun l e => l.set e.1 e.2) l =
        es.foldl (fun l e => l.set e.1 e.2) (l.set e.1 e.2) := rfl
    rcases List.mem_cons.1 hm with h1 | h2
    · have hje : j = e.1 := by rw [← h1]
      have hve : v = e.2 := by rw [← h1]
      have hnm : j ∉ es.map Prod.fst := by
        rw [hje]
        exact hnd.1
      rw [hstep, writeAll_getElem_notMem es _ j hnm, hje, hve]
      simp [List.getElem?_set_self, hje ▸ hj]
    · rw [hstep, ih _ j v hnd.2 h2 (by rw [List.length_set]; exact hj)]

theorem writeAll_perm_zip (n : Nat) (vs : List Value) (es : List (Nat × Value))
    (hlen : vs.length = n) (hperm : List.Perm es ((List.range n).zip vs)) :
    es.foldl (fun l e => l.set e.1 e.2) (List.replicate n Value.undef) = vs := by
  have hfst : (es.map Prod.fst).Nodup := by
    have hp : List.Perm (es.map Prod.fst) (((List.range n).zip vs).map Prod.fst) :=
      hperm.map Prod.fst
    rw [List.map_fst_zip _ _ (by rw [List.length_range, hlen])] at hp
    exact hp.symm.nodup (List.nodup_range n)
  refine List.ext_getElem? ?_
  intro j
  by_cases hjn : j < n
  · have hjv : j < vs.length := by omega
    have hjz : j < ((List.range n).zip vs).length := by
      rw [List.length_zip, List.length_range, hlen]
      simp [hjn]
    have hmem : (j, vs[j]) ∈ es := by
      rw [hperm.mem_iff]
      have hz : ((List.range n).zip vs)[j] = (j, vs[j]) := by
        rw [List.getElem_zip, List.getElem_range]
      rw [← hz]
      exact List.getElem_mem _
    rw [writeAll_getElem_mem es _ j _ hfst hmem
        (by rw [List.length_replicate]; exact hjn),
      List.getElem?_eq_getElem hjv]
  · rw [List.getElem?_eq_none (by rw [writeAll_length, List.length_replicate]; omega),
      List.getElem?_eq_none (by omega)]

theorem allsGetD_set (al : List AllSt) (aid : Nat) (x : AllSt) (h : aid < al.length) :
    (al.set aid x).getD aid ⟨[], 0, 0, 0⟩ = x := by
  simp [List.getD_eq_getElem?_getD, List.getElem?_set_self, h]

/-- Feeding the settlement events of the inputs into the `Promise.all`
accumulator closures, in any completion order: while events remain the
target stays untouched; the final event fires the target's `resolve` with
the accumulated array, i.e. the events written into the result slots. -/
theorem allAcc_run : ∀ (es : List (Nat × Value)) (w : World) (aid : Nat) (rs : List Value)
    (cnt n tgt : Nat),
    w.alls.getD aid ⟨[], 0, 0, 0⟩ = ⟨rs, cnt, n, tgt⟩ →
    (getP w tgt).state = .pending → tgt < w.heap.length →
    cnt + es.length = n →
    es ≠ [] →
    (getP (applyArrivals w aid es) tgt).state = .resolved ∧
    (getP (applyArrivals w aid es) tgt).result =
      .list (es.foldl (fun l e => l.set e.1 e.2) rs) := by
  intro es
  induction es with
  | nil =>
    intro w aid rs cnt n tgt _ _ _ _ hne
    exact absurd rfl hne
  | cons e es ih =>
    intro w aid rs cnt n tgt hgd hp hl hcnt _
    have haid : aid < w.alls.length := by
      by_contra hc
      push_neg at hc
      have : w.alls.getD aid ⟨[], 0, 0, 0⟩ = ⟨[], 0, 0, 0⟩ := by
        simp [List.getD_eq_getElem?_getD, List.getElem?_eq_none hc]
      rw [this] at hgd
      have hn0 : n = 0 := by
        injection hgd with h1 h2 h3 h4
        exact h3.symm
      simp only [List.length_cons] at hcnt
      omega
    have hstep : applyArrivals w aid (e :: es) =
        applyArrivals ((runRPred w .resolved 0 (.allRes aid e.1) e.2).1) aid es := rfl
    have hrun : (runRPred w .resolved 0 (.allRes aid e.1) e.2).1 =
        (if cnt + 1 = n then
          execResolve {w with alls := w.alls.set aid ⟨rs.set e.1 e.2, cnt + 1, n, tgt⟩}
            tgt (.list (rs.set e.1 e.2))
         else {w with alls := w.alls.set aid ⟨rs.set e.1 e.2, cnt + 1, n, tgt⟩}) := by
      unfold runRPred
      dsimp only
      rw [hgd]
    cases es with
    | nil =>
      have hc1 : cnt + 1 = n := by
        simpa using hcnt
      rw [hstep, hrun, if_pos hc1]
      have hfin : applyArrivals (execResolve
          {w with alls := w.alls.set aid ⟨rs.set e.1 e.2, cnt + 1, n, tgt⟩}
          tgt (.list (rs.set e.1 e.2))) aid [] =
        execResolve {w with alls := w.alls.set aid ⟨rs.set e.1 e.2, cnt + 1, n, tgt⟩}
          tgt (.list (rs.set e.1 e.2)) := rfl
      rw [hfin, execResolve,
        getP_fulfillP_self _ _ _ _ (by exact hp) (by exact hl)]
      exact ⟨rfl, rfl⟩
    | cons e2 es2 =>
      have hc1 : ¬ cnt + 1 = n := by
        simp only [List.length_cons] at hcnt
        omega
      rw [hstep, hrun, if_neg hc1]
      have ihr := ih {w with alls := w.alls.set aid ⟨rs.set e.1 e.2, cnt + 1, n, tgt⟩}
        aid (rs.set e.1 e.2) (cnt + 1) n tgt
        (by
          show (w.alls.set aid _).getD aid _ = _
          rw [allsGetD_set _ _ _ haid])
        (by exact hp) (by exact hl)
        (by simp only [List.length_cons] at hcnt ⊢; omega)
        (by simp)
      exact ihr

/-- Claim C7: `allOf` fulfills with the fulfillment values in input order,
not completion order.  (1) Empty input fulfills with the empty array at
construction.  (2) For `n` inputs, whatever the completion order — any
permutation of the events (input index, value) reaching the accumulator
closures — once all have arrived the target fulfills with the values
listed in input order.  (3) End to end: two futures fulfilling 10 at
delay 30 and 20 at delay 5 yield `[10, 20]`, not `[20, 10]`. -/
theorem c7_all_of_input_order :
    ((getP (allP emptyWorld []).1 (allP emptyWorld []).2).state = .resolved ∧
      (getP (allP emptyWorld []).1 (allP emptyWorld []).2).result = .list []) ∧
    (∀ (n : Nat) (vs : List Value) (es : List (Nat × Value)) (w : World) (aid tgt : Nat),
      w.alls.getD aid ⟨[], 0, 0, 0⟩ = ⟨List.replicate n .undef, 0, n, tgt⟩ →
      (getP w tgt).state = .pending → tgt < w.heap.length →
      vs.length = n → 0 < n →
      List.Perm es ((List.range n).zip vs) →
      (getP (applyArrivals w aid es) tgt).state = .resolved ∧
      (getP (applyArrivals w aid es) tgt).result = .list vs) ∧
    ((getP c7World.1 c7World.2).state = .resolved ∧
      (getP c7World.1 c7World.2).result = .list [.num 10, .num 20]) := by
  refine ⟨⟨by decide, by decide⟩, ?_, by decide, by decide⟩
  intro n vs es w aid tgt hgd hp hl hvs hn hperm
  have hlen : es.length = n := by
    rw [hperm.length_eq, List.length_zip, List.length_range, hvs]
    simp
  obtain ⟨hst, hres⟩ := allAcc_run es w aid (List.replicate n .undef) 0 n tgt hgd hp hl
    (by omega) (by intro hc; rw [hc] at hlen; simp at hlen; omega)
  refine ⟨hst, ?_⟩
  rw [hres, writeAll_perm_zip n vs es hvs hperm]

/-- Witness for C7's quantified part: three inputs arriving in completion
order 2, 0, 1 still assemble `[1, 2, 3]` in input order. -/
theorem c7_all_of_input_order_witness :
    (getP (applyArrivals
        (⟨[⟨.pending, .null, []⟩], [⟨List.replicate 3 .undef, 0, 3, 0⟩], [], [], 0⟩ : World)
        0 [(2, .num 3), (0, .num 1), (1, .num 2)]) 0).state = .resolved ∧
    (getP (applyArrivals
        (⟨[⟨.pending, .null, []⟩], [⟨List.replicate 3 .undef, 0, 3, 0⟩], [], [], 0⟩ : World)
        0 [(2, .num 3), (0, .num 1), (1, .num 2)]) 0).result =
      .list [.num 1, .num 2, .num 3] :=
  c7_all_of_input_order.2.1 3 [.num 1, .num 2, .num 3]
    [(2, .num 3), (0, .num 1), (1, .num 2)] _ 0 0 rfl rfl (by decide) rfl (by decide)
    (by decide)

theorem applySettles_first_facts (w : World) (pid : Nat) (c : Bool × Value)
    (cs : List (Bool × Value)) (hp : (getP w pid).state = .pending)
    (hl : pid < w.heap.length) :
    (getP (applySettles w pid (c :: cs)) pid).state =
      (if c.1 then .rejected else .resolved) ∧
    (getP (applySettles w pid (c :: cs)) pid).result = c.2 := by
  have hone : getP (if c.1 then execReject w pid c.2 else execResolve w pid c.2) pid =
      ⟨if c.1 then .rejected else .resolved, c.2, (getP w pid).queue⟩ := by
    by_cases hc : c.1
    · rw [if_pos hc, if_pos hc, execReject, getP_fulfillP_self _ _ _ _ hp hl]
    · rw [if_neg hc, if_neg hc, execResolve, getP_fulfillP_self _ _ _ _ hp hl]
  have hset : ¬ (getP (if c.1 then execReject w pid c.2 else execResolve w pid c.2)
      pid).state = .pending := by
    rw [hone]
    by_cases hc : c.1 <;> simp [hc]
  have heq : applySettles w pid (c :: cs) =
      (if c.1 then execReject w pid c.2 else execResolve w pid c.2) := by
    rw [applySettles_cons, applySettles_settled _ _ _ hset]
  rw [heq, hone]
  exact ⟨rfl, rfl⟩

/-- The `firstOf` wiring leaves the fresh target pending: attaching the
target's `resolve`/`reject` to each (coerced) input only queues reactions
on the inputs.  (`tgt` is the target's heap slot; inputs that are Futures
must reference слots other than the one being created.) -/
theorem resolveP_not_promise (w : World) (v : Value) (h : isPromiseV v = false) :
    resolveP w v = ({w with heap := w.heap ++ [⟨.resolved, v, []⟩]}, w.heap.length) := by
  cases v <;> first | rfl | simp [isPromiseV] at h

/-- The `firstOf` wiring leaves the fresh target pending: attaching the
target's `resolve`/`reject` to each (coerced) input only queues reactions
on the inputs.  (`tgt` is the target's heap slot; inputs that are Futures
must reference slots other than the one being created.) -/
theorem raceFold_pending : ∀ (inputs : List Value) (w : World) (tgt : Nat),
    tgt < w.heap.length →
    (∀ v ∈ inputs, ∀ g, v = Value.promise g → g ≠ tgt) →
    getP (inputs.foldl (fun wa v =>
        let (wb, pidI) := resolveP wa v
        (thenP wb pidI (some (.resolver tgt)) (some (.rejecter tgt))).1) w) tgt
      = getP w tgt ∧
    tgt < (inputs.foldl (fun wa v =>
        let (wb, pidI) := resolveP wa v
        (thenP wb pidI (some (.resolver tgt)) (some (.rejecter tgt))).1) w).heap.length := by
  intro inputs
  induction inputs with
  | nil =>
    intro w tgt hl _
    exact ⟨rfl, hl⟩
  | cons v inputs ih =>
    intro w tgt hl hv
    have hstep : (v :: inputs).foldl (fun wa v =>
        let (wb, pidI) := resolveP wa v
        (thenP wb pidI (some (.resolver tgt)) (some (.rejecter tgt))).1) w =
      inputs.foldl (fun wa v =>
        let (wb, pidI) := resolveP wa v
        (thenP wb pidI (some (.resolver tgt)) (some (.rejecter tgt))).1)
        (let (wb, pidI) := resolveP w v
         (thenP wb pidI (some (.resolver tgt)) (some (.rejecter tgt))).1) := rfl
    have hkey : getP (let (wb, pidI) := resolveP w v
          (thenP wb pidI (some (.resolver tgt)) (some (.rejecter tgt))).1) tgt
          = getP w tgt ∧
        tgt < (let (wb, pidI) := resolveP w v
          (thenP wb pidI (some (.resolver tgt)) (some (.rejecter tgt))).1).heap.length := by
      by_cases hpv : isPromiseV v = true
      · obtain ⟨g, hg⟩ : ∃ g, v = Value.promise g := by
          cases v <;> simp [isPromiseV] at hpv ⊢
        subst hg
        have hgt : g ≠ tgt := hv _ (by simp) g rfl
        have hred : (let (wb, pidI) := resolveP w (Value.promise g)
            (thenP wb pidI (some (.resolver tgt)) (some (.rejecter tgt))).1) =
            (thenP w g (some (.resolver tgt)) (some (.rejecter tgt))).1 := rfl
        rw [hred]
        refine ⟨getP_thenP_ne _ _ _ _ _ (fun hh => hgt hh.symm) hl, ?_⟩
        rw [heapLen_thenP]
        omega
      · have hnp : isPromiseV v = false := by
          cases hvk : isPromiseV v
          · rfl
          · exact absurd hvk hpv
        have hred : (let (wb, pidI) := resolveP w v
            (thenP wb pidI (some (.resolver tgt)) (some (.rejecter tgt))).1) =
            (thenP {w with heap := w.heap ++ [⟨.resolved, v, []⟩]} w.heap.length
              (some (.resolver tgt)) (some (.rejecter tgt))).1 := by
          rw [resolveP_not_promise w v hnp]
        rw [hred]
        have hlen1 : ({w with heap := w.heap ++ [⟨PState.resolved, v, []⟩]} : World).heap.length
            = w.heap.length + 1 := by simp
        refine ⟨?_, ?_⟩
        · rw [getP_thenP_ne _ _ _ _ _ (by omega) (by rw [hlen1]; omega),
            getP_heapAppend_lt _ _ _ hl]
        · rw [heapLen_thenP, hlen1]
          omega
    obtain ⟨hk1, hk2⟩ := hkey
    obtain ⟨i1, i2⟩ := ih _ tgt hk2 (fun v2 hv2 g hg => hv v2 (by simp [hv2]) g hg)
    rw [hstep]
    exact ⟨i1.trans hk1, i2⟩

set_option maxHeartbeats 1600000 in
/-- Claim C8: for every non-empty input list, the Future returned by
`firstOf` is still Pending when the combinator returns, and the first
settlement event subsequently delivered to it (through the
`resolve`/`reject` closures the combinator attached to the inputs)
decides its outcome and payload — every later settlement event in the
sequence is ignored.  End to end: `firstOf` of a future fulfilling 'a'
at delay 10 and one fulfilling 'b' at delay 5 fulfills with 'b'. -/
theorem c8_first_of_settlement_order
    (w : World) (inputs : List Value) (c : Bool × Value) (cs : List (Bool × Value))
    (hne : inputs ≠ [])
    (hids : ∀ v ∈ inputs, ∀ g, v = Value.promise g → g ≠ w.heap.length) :
    (getP (raceP w inputs).1 (raceP w inputs).2).state = .pending ∧
    (getP (applySettles (raceP w inputs).1 (raceP w inputs).2 (c :: cs))
        (raceP w inputs).2).state = (if c.1 then .rejected else .resolved) ∧
    (getP (applySettles (raceP w inputs).1 (raceP w inputs).2 (c :: cs))
        (raceP w inputs).2).result = c.2 ∧
    (getP c8World.1 c8World.2).state = .resolved ∧
    (getP c8World.1 c8World.2).result = .str "b" := by
  have hlen0 : ¬ inputs.length = 0 := fun h => hne (List.length_eq_zero.mp h)
  have hform : raceP w inputs =
      (inputs.foldl (fun wa v =>
          let (wb, pidI) := resolveP wa v
          (thenP wb pidI (some (.resolver w.heap.length))
            (some (.rejecter w.heap.length))).1)
        {w with heap := w.heap ++ [⟨.pending, .null, []⟩]}, w.heap.length) := by
    simp only [raceP]
    rw [if_neg hlen0]
  obtain ⟨hfold, hlt⟩ := raceFold_pending inputs
      {w with heap := w.heap ++ [⟨.pending, .null, []⟩]} w.heap.length
      (by simp) hids
  have hpend0 : getP (raceP w inputs).1 (raceP w inputs).2 = ⟨.pending, .null, []⟩ := by
    rw [hform]
    dsimp only
    rw [hfold, getP_heapAppend_self]
  have hp : (getP (raceP w inputs).1 (raceP w inputs).2).state = .pending := by
    rw [hpend0]
  have hlt2 : (raceP w inputs).2 < ((raceP w inputs).1).heap.length := by
    rw [hform]
    exact hlt
  obtain ⟨hst, hres⟩ := applySettles_first_facts (raceP w inputs).1
      (raceP w inputs).2 c cs hp hlt2
  exact ⟨hp, hst, hres, by decide, by decide⟩

set_option maxHeartbeats 1600000 in
theorem c8_first_of_settlement_order_witness :
    (getP (applySettles (raceP emptyWorld [Value.num 7]).1
        (raceP emptyWorld [Value.num 7]).2
        [(false, .str "b"), (false, .str "a")])
      (raceP emptyWorld [Value.num 7]).2).result = .str "b" ∧
    (getP c8World.1 c8World.2).result = .str "b" := by
  have h := c8_first_of_settlement_order emptyWorld [Value.num 7]
      (false, .str "b") [(false, .str "a")] (by decide)
      (by intro v hv g hg
          rw [List.mem_singleton] at hv
          subst hv
          exact Value.noConfusion hg)
  exact ⟨h.2.2.1, h.2.2.2.2⟩

set_option maxHeartbeats 1600000 in
theorem c3_multi_attach_fanout_witness :
    (fanoutRun .rejected (.str "x")
        [(.const (.num 1), .const (.num 2))] [(.identity, .thrower)]).log =
      fanoutLog .rejected (.str "x") 1 1 := by
  have h := c3_multi_attach_fanout .rejected (.str "x")
      [(.const (.num 1), .const (.num 2))] [(.identity, .thrower)]
      (by decide)
      (by intro fg hfg
          rw [List.mem_singleton] at hfg
          subst hfg
          rfl)
      (by intro fg hfg
          rw [List.mem_singleton] at hfg
          subst hfg
          rfl)
  exact h

theorem jsAttach_pending (w : JsWorld) (a : JsAtt) (hw : w.state = .pending) :
    (jsAttach w a).state = .pending ∧
    (jsAttach w a).value = w.value ∧
    (jsAttach w a).reason = w.reason ∧
    (jsAttach w a).log = w.log ∧
    (jsAttach w a).next = w.next + 1 ∧
    (jsAttach w a).onRejected = (JsAtt.rejHandler a).map (fun f => (w.next, f)) ∧
    (∀ t ∈ (jsAttach w a).tasks, t ∈ w.tasks ∨ t = JsTask.fulfillT) := by
  cases a with
  | thenBoth f g =>
    refine ⟨hw, rfl, rfl, rfl, rfl, rfl, ?_⟩
    intro t ht
    simp only [jsAttach, jsThenCore, jsSetResolvedHandler, jsSetRejectedHandler,
      List.mem_append, List.mem_singleton] at ht
    exact ht
  | thenRes f =>
    refine ⟨hw, rfl, rfl, rfl, rfl, rfl, ?_⟩
    intro t ht
    simp only [jsAttach, jsThenCore, jsSetResolvedHandler, jsSetRejectedHandler,
      List.mem_append, List.mem_singleton] at ht
    exact ht
  | thenRej g =>
    refine ⟨hw, rfl, rfl, rfl, rfl, rfl, ?_⟩
    intro t ht
    simp only [jsAttach, jsThenCore, jsSetResolvedHandler, jsSetRejectedHandler,
      List.mem_append, List.mem_singleton] at ht
    exact ht
  | catchA o =>
    have hful : jsFulfill {w with onRejected := o.map (fun f => (w.next, f))} =
        {w with onRejected := o.map (fun f => (w.next, f))} := by
      unfold jsFulfill
      rw [show ({w with onRejected := o.map (fun f => (w.next, f))} : JsWorld).state
        = w.state from rfl, hw]
    have hc : jsAttach w (.catchA o) =
        {w with onRejected := o.map (fun f => (w.next, f)), next := w.next + 1} := by
      show jsCatch w o = _
      unfold jsCatch jsSetRejectedHandler
      dsimp only
      rw [show ({w with onRejected := none} : JsWorld).next = w.next from rfl]
      rw [show ({({w with onRejected := none} : JsWorld) with
        onRejected := o.map (fun f => (w.next, f))} : JsWorld) =
        {w with onRejected := o.map (fun f => (w.next, f))} from rfl]
      rw [hful]
    rw [hc]
    exact ⟨hw, rfl, rfl, rfl, rfl, rfl, fun t ht => Or.inl ht⟩

theorem jsAttachAll_pending : ∀ (as' : List JsAtt) (w : JsWorld),
    w.state = .pending →
    (jsAttachAll w as').state = .pending ∧
    (jsAttachAll w as').value = w.value ∧
    (jsAttachAll w as').reason = w.reason ∧
    (jsAttachAll w as').log = w.log ∧
    (jsAttachAll w as').next = w.next + as'.length ∧
    (∀ t ∈ (jsAttachAll w as').tasks, t ∈ w.tasks ∨ t = JsTask.fulfillT) := by
  intro as'
  induction as' with
  | nil =>
    intro w hw
    exact ⟨hw, rfl, rfl, rfl, rfl, fun t ht => Or.inl ht⟩
  | cons a as' ih =>
    intro w hw
    obtain ⟨h1, h2, h3, h4, h5, h6, h7⟩ := jsAttach_pending w a hw
    have hstep : jsAttachAll w (a :: as') = jsAttachAll (jsAttach w a) as' := rfl
    obtain ⟨i1, i2, i3, i4, i5, i6⟩ := ih (jsAttach w a) h1
    rw [hstep]
    refine ⟨i1, i2.trans h2, i3.trans h3, i4.trans h4, ?_, ?_⟩
    · rw [i5, h5]
      simp [List.length_cons]
      omega
    · intro t ht
      rcases i6 t ht with hm | hf
      · exact h7 t hm
      · exact Or.inr hf

theorem jsRunTasks_rejected_noslot : ∀ (n : Nat) (w : JsWorld),
    w.state = .rejected → w.onRejected = none → w.tasks.length ≤ n →
    (jsRunTasks n w).log = w.log ++ w.tasks.filterMap taskEntry := by
  intro n
  induction n with
  | zero =>
    intro w _ _ hlen
    have ht : w.tasks = [] := List.length_eq_zero.mp (Nat.le_zero.mp hlen)
    rw [jsRunTasks, ht]
    simp
  | succ n ih =>
    intro w hst hslot hlen
    cases htk : w.tasks with
    | nil =>
      rw [jsRunTasks, htk]
      simp [htk]
    | cons t rest =>
      cases t with
      | fulfillT =>
        have hred : jsRunTasks (n + 1) w =
            jsRunTasks n (jsFulfill {w with tasks := rest}) := by
          rw [jsRunTasks, htk]
        have hful : jsFulfill {w with tasks := rest} = {w with tasks := rest} := by
          unfold jsFulfill
          rw [show ({w with tasks := rest} : JsWorld).state = w.state from rfl, hst]
          unfold jsDoReject
          rw [show ({w with tasks := rest} : JsWorld).onRejected = w.onRejected from rfl,
            hslot]
        rw [hred, hful, ih {w with tasks := rest} hst hslot
          (by rw [htk] at hlen; simp at hlen ⊢; omega)]
        rw [show ({w with tasks := rest} : JsWorld).log = w.log from rfl]
        rfl
      | invokeT tag v =>
        have hred : jsRunTasks (n + 1) w =
            jsRunTasks n {w with tasks := rest, log := w.log ++ [(tag, v)]} := by
          rw [jsRunTasks, htk]
        rw [hred, ih {w with tasks := rest, log := w.log ++ [(tag, v)]} hst hslot
          (by rw [htk] at hlen; simp at hlen ⊢; omega)]
        simp [taskEntry]

theorem jsReject_run_log (w2 : JsWorld) (r : Value)
    (hs : w2.state = .pending) (hl : w2.log = [])
    (htk : ∀ t ∈ w2.tasks, t = JsTask.fulfillT) :
    (jsRunTasks (w2.tasks.length + 1) (jsReject w2 r)).log =
      match w2.onRejected with
      | some tf => [(tf.1, r)]
      | none => [] := by
  have hfm : w2.tasks.filterMap taskEntry = [] :=
    List.filterMap_eq_nil_iff.mpr (fun t ht => by rw [htk t ht]; rfl)
  have hrej : jsReject w2 r = jsDoReject {w2 with reason := r, state := .rejected} := by
    unfold jsReject
    rw [if_neg (fun hne => hne hs)]
    rfl
  cases hsl : w2.onRejected with
  | none =>
    have hdr : jsDoReject {w2 with reason := r, state := .rejected} =
        {w2 with reason := r, state := .rejected} := by
      unfold jsDoReject
      rw [show ({w2 with reason := r, state := .rejected} : JsWorld).onRejected
        = w2.onRejected from rfl, hsl]
    rw [hrej, hdr, jsRunTasks_rejected_noslot (w2.tasks.length + 1)
      {w2 with reason := r, state := .rejected} rfl hsl (Nat.le_succ _)]
    show w2.log ++ w2.tasks.filterMap taskEntry = []
    rw [hl, hfm]
    exact List.nil_append _
  | some tf =>
    have hdr : jsDoReject {w2 with reason := r, state := .rejected} =
        {w2 with reason := r, state := .rejected, onRejected := none,
                 tasks := w2.tasks ++ [.invokeT tf.1 r]} := by
      unfold jsDoReject
      rw [show ({w2 with reason := r, state := .rejected} : JsWorld).onRejected
        = w2.onRejected from rfl, hsl]
    have hlen : (w2.tasks ++ [JsTask.invokeT tf.1 r]).length ≤ w2.tasks.length + 1 := by
      simp
    rw [hrej, hdr, jsRunTasks_rejected_noslot (w2.tasks.length + 1)
      {w2 with reason := r, state := .rejected, onRejected := none,
               tasks := w2.tasks ++ [.invokeT tf.1 r]} rfl rfl hlen]
    show w2.log ++ (w2.tasks ++ [JsTask.invokeT tf.1 r]).filterMap taskEntry
      = [(tf.1, r)]
    rw [List.filterMap_append, hl, hfm]
    rfl

set_option maxHeartbeats 1600000 in
/-- Claim C10, counterexample: on a `src/promise.js` promise already
rejected with 'boom', calling `catch(A)` and then `catch(B)` (wrapper tags
0 and 1) gets BOTH wrappers invoked — `catch` runs `this._fulfill()`
synchronously, and on an already-rejected promise `_doReject` consumes the
freshly installed slot each time, so the earlier handler (tag 0, not the
most recently attached one) is invoked as well, refuting the claim that
only the most recently attached rejection handler can ever be invoked. -/
theorem c10_counterexample :
    c10World.log = [(0, Value.str "boom"), (1, Value.str "boom")] := by decide

/-- Claim C10 (amended): the overwrite invariant holds while the promise is
still pending.  After any attachment sequence ending in `a` on a pending
`src/promise.js` promise, the single `_onRejected` slot holds exactly the
rejection handler `a` supplied (tagged with the last wrapper id, or empty
if `a` supplies none) — every earlier installation was overwritten — and
when the promise then rejects and the scheduled callbacks run, the log
shows at most that one invocation: the last attachment's rejection handler
with the rejection reason, and nothing at all if `a` has no rejection
handler. -/
theorem c10_overwrite_last_handler (as' : List JsAtt) (a : JsAtt) (r : Value) :
    (jsAttachAll jsPending (as' ++ [a])).onRejected =
      (JsAtt.rejHandler a).map (fun f => (as'.length, f)) ∧
    (jsRunTasks ((jsAttachAll jsPending (as' ++ [a])).tasks.length + 1)
        (jsReject (jsAttachAll jsPending (as' ++ [a])) r)).log =
      (match JsAtt.rejHandler a with
       | some _ => [(as'.length, r)]
       | none => ([] : List (Nat × Value))) := by
  have hsplit : jsAttachAll jsPending (as' ++ [a]) =
      jsAttach (jsAttachAll jsPending as') a := by
    unfold jsAttachAll
    rw [List.foldl_append]
    rfl
  obtain ⟨hs0, hv0, hr0, hl0, hn0, htk0⟩ := jsAttachAll_pending as' jsPending rfl
  obtain ⟨as1, av1, ar1, al1, an1, aslot, atk⟩ :=
    jsAttach_pending (jsAttachAll jsPending as') a hs0
  have hslot : (jsAttachAll jsPending (as' ++ [a])).onRejected =
      (JsAtt.rejHandler a).map (fun f => (as'.length, f)) := by
    rw [hsplit, aslot, hn0]
    simp [jsPending]
  refine ⟨hslot, ?_⟩
  have hs2 : (jsAttachAll jsPending (as' ++ [a])).state = .pending := by
    rw [hsplit]
    exact as1
  have hl2 : (jsAttachAll jsPending (as' ++ [a])).log = [] := by
    rw [hsplit, al1, hl0]
    rfl
  have htk2 : ∀ t ∈ (jsAttachAll jsPending (as' ++ [a])).tasks,
      t = JsTask.fulfillT := by
    intro t ht
    rw [hsplit] at ht
    rcases atk t ht with hm | hf
    · rcases htk0 t hm with hm2 | hf2
      · exact absurd hm2 (by simp [jsPending])
      · exact hf2
    · exact hf
  have hrun := jsReject_run_log (jsAttachAll jsPending (as' ++ [a])) r hs2 hl2 htk2
  rw [hrun, hslot]
  cases JsAtt.rejHandler a <;> rfl
